import Mathlib

/-!
Verification of the honeypot-api repository (scam-detection decoy service)
against its natural-language specification.

The development shallowly embeds the Python sources:
  * `Scam_detector.py`   (class `ScamDetector`)
  * `Intelligence_extractor.py` (class `IntelligenceExtractor`)
  * `Conversation_agent.py` (method `generate_agent_notes`)
  * `Session_manager.py` (session record and its initial value)
  * `app.py` (the per-message state update of `analyze_message` and the
    GUVI finalization callback trigger)

Text is modelled as `List Char`.  Python regular-expression calls
(`re.findall` with `re.IGNORECASE`) are embedded as specialized scanners,
one per pattern occurring in the source; each scanner mirrors
`re.findall`'s left-to-right, non-overlapping, greedy-with-backtracking
semantics for its particular pattern.  Word characters, digits and
whitespace use the ASCII interpretation (all pattern literals in the
source are ASCII apart from the mojibake rupee sequence, which is
embedded verbatim).  Python floats are embedded as exact rationals; all
confidence values arising in the source are nonnegative multiples of
1/100, for which exact rational arithmetic agrees with the float code
paths being modelled.
-/

/-- Character list of a string literal (Python `str` values as `List Char`). -/
def chars (s : String) : List Char := s.data

/-- ASCII apostrophe character (used inside indicator strings). -/
def squote : Char := Char.ofNat 39

/-- ASCII digit test, Python regex `\d`. -/
def isDigitC (c : Char) : Bool := c.isDigit

/-- ASCII letter test, Python regex `[a-zA-Z]`. -/
def isAlphaC (c : Char) : Bool := c.isAlpha

/-- ASCII alphanumeric test, Python regex `[a-zA-Z0-9]`. -/
def isAlnumC (c : Char) : Bool := c.isAlphanum

/-- Word character, Python regex `\w` (ASCII): alphanumeric or underscore. -/
def isWordC (c : Char) : Bool := c.isAlphanum || c = '_'

/-- Whitespace, Python regex `\s` and `str.split()` / `str.strip()`
whitespace: space, tab, newline, carriage return, vertical tab, form feed. -/
def isSpaceC (c : Char) : Bool :=
  c = ' ' || c = Char.ofNat 9 || c = Char.ofNat 10 || c = Char.ofNat 13 ||
  c = Char.ofNat 11 || c = Char.ofNat 12

/-- ASCII lower-casing of one character, Python `str.lower()` restricted to
ASCII (all keyword tables in the source are ASCII). -/
def lowerC (c : Char) : Char :=
  if 'A' ≤ c ∧ c ≤ 'Z' then Char.ofNat (c.toNat + 32) else c

/-- Lower-case a whole text, Python `message.lower()`. -/
def lowerL (s : List Char) : List Char := s.map lowerC

/-- Containment of `n` as a contiguous substring of `h`, Python `n in h`. -/
def containsSub (n : List Char) : List Char → Bool
  | [] => n.isEmpty
  | c :: rest => n.isPrefixOf (c :: rest) || containsSub n rest

/-- Python `str.strip()`: drop leading and trailing whitespace. -/
def pstrip (s : List Char) : List Char :=
  ((s.dropWhile isSpaceC).reverse.dropWhile isSpaceC).reverse

/-- Number of occurrences of a character, Python `s.count(c)`. -/
def countChar (c : Char) (s : List Char) : ℕ := (s.filter (· = c)).length

/-- Words of a text, Python `s.split()` (split on whitespace runs,
dropping empty pieces). -/
def pwords : List Char → List (List Char)
  | [] => []
  | c :: rest =>
    if isSpaceC c then pwords rest
    else
      match pwords rest with
      | [] => [[c]]
      | w :: ws =>
        match rest with
        | [] => [[c]]
        | d :: _ => if isSpaceC d then [c] :: w :: ws else (c :: w) :: ws

/-- Python `str.split(sep)` for a one-character separator. -/
def pysplit (sep : Char) : List Char → List (List Char)
  | [] => [[]]
  | c :: rest =>
    if c = sep then [] :: pysplit sep rest
    else
      match pysplit sep rest with
      | [] => [[c]]
      | h :: t => (c :: h) :: t

/-- Order-preserving deduplication, Python `list(dict.fromkeys(xs))`. -/
def dedupAux (seen : List (List Char)) : List (List Char) → List (List Char)
  | [] => []
  | a :: t => if seen.contains a then dedupAux seen t else a :: dedupAux (a :: seen) t

/-- Order-preserving deduplication of a list of strings. -/
def dedup (l : List (List Char)) : List (List Char) := dedupAux [] l

/-- Number of digit characters of a candidate,
Python `len(re.sub(r'\D', '', s))`. -/
def digitLen (s : List Char) : ℕ := (s.filter isDigitC).length

/-- Python `s.startswith(lit)` (case sensitive). -/
def startsWithL : List Char → List Char → Bool
  | [], _ => true
  | _ :: _, [] => false
  | a :: as_, b :: bs => a = b && startsWithL as_ bs

/-- Join string pieces with the literal separator chunk `sep`,
Python `sep.join(parts)`. -/
def pjoin (sep : List Char) : List (List Char) → List Char
  | [] => []
  | [p] => p
  | p :: q :: rest => p ++ sep ++ pjoin sep (q :: rest)

/-- Case-insensitive match of the (lower-case) literal `lit` against a
prefix of `s`; returns the rest of `s` on success.  Embeds a literal
piece of a regex compiled with `re.IGNORECASE`. -/
def matchLitCI : List Char → List Char → Option (List Char)
  | [], s => some s
  | _ :: _, [] => none
  | l :: lt, c :: ct => if lowerC c = l then matchLitCI lt ct else none

/-- Regex word-boundary test reduced to the scan direction used here:
`boundaryB prev` holds when the previous character is absent or a
non-word character.  Every `\b`-prefixed pattern in the source continues
with a word-class atom, and every trailing `\b` follows a word-class
atom, so this one-sided test together with `afterBoundary` is equivalent
to the full flip-of-wordness semantics of `\b`. -/
def boundaryB : Option Char → Bool
  | none => true
  | some c => !isWordC c

/-- Trailing `\b` test after a match ending in a word character: the next
character must be absent or a non-word character. -/
def afterBoundary (s : List Char) : Bool := boundaryB s.head?

/-- Generic embedding of `re.findall` for one pattern.  `try1 s` attempts
a match at the current position, returning the emitted string (the whole
match, or the capturing group for group patterns) and the number of
characters consumed by the whole match.  The scan visits positions left
to right, skips  past an accepted match (non-overlapping semantics), and
when `needB` is set only attempts positions preceded by a non-word
character or the start of the text (leading `\b`). -/
def scanFA (try1 : List Char → Option (List Char × ℕ)) (needB : Bool) :
    ℕ → Option Char → List Char → List (List Char)
  | _, _, [] => []
  | skip + 1, _, c :: rest => scanFA try1 needB skip (some c) rest
  | 0, prev, c :: rest =>
    if !needB || boundaryB prev then
      match try1 (c :: rest) with
      | some (m, n) => m :: scanFA try1 needB (n - 1) (some c) rest
      | none => scanFA try1 needB 0 (some c) rest
    else scanFA try1 needB 0 (some c) rest

/-- Run a pattern scanner over a whole text, Python
`re.findall(pattern, text, re.IGNORECASE)`. -/
def reFindall (try1 : List Char → Option (List Char × ℕ)) (needB : Bool)
    (s : List Char) : List (List Char) :=
  scanFA try1 needB 0 none s

/-- Backtracking attempt for `\d{lo,hi}\b` at the current position: try the
greedy length first, retreating while the trailing boundary fails, never
below `lo` (regex greedy quantifier with backtracking). -/
def tryDigitsBT (lo : ℕ) (s : List Char) : ℕ → Option (List Char × ℕ)
  | 0 => none
  | k + 1 =>
    if lo ≤ k + 1 ∧ (s.take (k + 1)).length = k + 1 ∧
        (s.take (k + 1)).all isDigitC ∧ afterBoundary (s.drop (k + 1)) then
      some (s.take (k + 1), k + 1)
    else tryDigitsBT lo s k

/-- Embeds `re.findall(r'\b\d{lo,hi}\b', text)` (used with 9,18 / 10,16 /
10,10 / 6,6 in the source). -/
def findBare (lo hi : ℕ) (s : List Char) : List (List Char) :=
  reFindall (fun t => tryDigitsBT lo t hi) true s

/-- Four consecutive digits, regex `\d{4}`. -/
def take4d (s : List Char) : Option (List Char × List Char) :=
  let t := s.take 4
  if t.length = 4 ∧ t.all isDigitC then some (t, s.drop 4) else none

/-- Alternatives of the optional separator `[-\s]?`, greedy order:
consume one separator character first, then the empty alternative. -/
def sepOpts : List Char → List (List Char × List Char)
  | [] => [([], [])]
  | c :: rest =>
    if c = '-' ∨ isSpaceC c then [([c], rest), ([], c :: rest)]
    else [([], c :: rest)]

/-- First alternative (in order) on which the continuation succeeds
(regex backtracking through alternative choice points). -/
def firstSome {α β : Type} : List α → (α → Option β) → Option β
  | [], _ => none
  | a :: t, f =>
    match f a with
    | some b => some b
    | none => firstSome t f

/-- Attempt for the card-format pattern
`\b\d{4}[-\s]?\d{4}[-\s]?\d{4}[-\s]?\d{4}\b` at the current position,
with depth-first backtracking over the three optional separators. -/
def tryCard (s : List Char) : Option (List Char × ℕ) :=
  (take4d s).bind fun p1 =>
  firstSome (sepOpts p1.2) fun q1 =>
  (take4d q1.2).bind fun p2 =>
  firstSome (sepOpts p2.2) fun q2 =>
  (take4d q2.2).bind fun p3 =>
  firstSome (sepOpts p3.2) fun q3 =>
  (take4d q3.2).bind fun p4 =>
  if afterBoundary p4.2 then
    let m := p1.1 ++ q1.1 ++ p2.1 ++ q2.1 ++ p3.1 ++ q3.1 ++ p4.1
    some (m, m.length)
  else none

/-- Embeds `re.findall` of the card-format pattern. -/
def findCard (s : List Char) : List (List Char) := reFindall tryCard true s

/-- Attempt for a capturing pattern `lit[:\s]+(\d+)` (the source uses the
literals `account`, `A/C` and `acc`, case-insensitively): the literal,
then one or more colon/whitespace characters, then the captured digit
run.  Emits the group, consumes the whole match. -/
def tryLitDigits (lit : List Char) (s : List Char) : Option (List Char × ℕ) :=
  (matchLitCI lit s).bind fun s1 =>
  let seps := s1.takeWhile (fun c => c = ':' || isSpaceC c)
  if seps.isEmpty then none
  else
    let s2 := s1.drop seps.length
    let ds := s2.takeWhile isDigitC
    if ds.isEmpty then none
    else some (ds, lit.length + seps.length + ds.length)

/-- Embeds `re.findall(r'lit[:\s]+(\d+)', text, re.IGNORECASE)` for a
given literal; `re.findall` returns the capturing group. -/
def findLitDigits (lit : List Char) (s : List Char) : List (List Char) :=
  reFindall (tryLitDigits lit) false s

/-- Character class `[a-zA-Z0-9._-]` of the generic handle pattern. -/
def isUpiClassC (c : Char) : Bool :=
  c.isAlphanum || c = '.' || c = '_' || c = '-'

/-- Attempt for the generic payment-handle pattern
`\b[a-zA-Z0-9._-]+@[a-zA-Z0-9]+\b`.  The greedy class runs admit no
successful backtracking (a shorter run would have to match `@` or the
trailing boundary against a class character), so the single greedy parse
decides the match.  Because the class contains the non-word characters
`.`, `-`, a leading `\b` additionally forces the first matched character
to be a word character whenever the previous position is non-word. -/
def tryUpiGeneric (s : List Char) : Option (List Char × ℕ) :=
  let u := s.takeWhile isUpiClassC
  if u.isEmpty then none
  else if !(u.head?.elim false isWordC) then none
  else
    match s.drop u.length with
    | '@' :: s2 =>
      let b := s2.takeWhile isAlnumC
      if b.isEmpty then none
      else if afterBoundary (s2.drop b.length) then
        some (u ++ '@' :: b, u.length + 1 + b.length)
      else none
    | _ => none

/-- Embeds `re.findall(r'\b[a-zA-Z0-9._-]+@[a-zA-Z0-9]+\b', text, re.IGNORECASE)`. -/
def findUpiGeneric (s : List Char) : List (List Char) :=
  reFindall tryUpiGeneric true s

/-- Attempt for a provider-specific handle pattern `\b\w+@lit\b`
(`lit` one of paytm, ybl, oksbi, okaxis, upi, gpay, phonepe, sbi, hdfc,
icici).  As for the generic handle pattern, greedy `\w+` admits no
successful backtracking. -/
def tryProvider (lit : List Char) (s : List Char) : Option (List Char × ℕ) :=
  let w := s.takeWhile isWordC
  if w.isEmpty then none
  else
    match s.drop w.length with
    | '@' :: s2 =>
      match matchLitCI lit s2 with
      | some s3 =>
        if afterBoundary s3 then
          some (w ++ '@' :: s2.take lit.length, w.length + 1 + lit.length)
        else none
      | none => none
    | _ => none

/-- Embeds `re.findall(r'\b\w+@lit\b', text, re.IGNORECASE)`. -/
def findProvider (lit : List Char) (s : List Char) : List (List Char) :=
  reFindall (tryProvider lit) true s

/-- Attempt for `http[s]?://[^\s]+` (no leading boundary in the
extractor's version).  The optional `s` backtracks if `://` fails after
consuming it. -/
def tryHttp (s : List Char) : Option (List Char × ℕ) :=
  (matchLitCI (chars "http") s).bind fun s1 =>
  firstSome
    (match s1 with
     | c :: rest => if lowerC c = 's' then [(1, rest), (0, s1)] else [(0, s1)]
     | [] => [(0, [])]) fun q =>
  (matchLitCI (chars "://") q.2).bind fun s2 =>
  let ns := s2.takeWhile (fun c => !isSpaceC c)
  if ns.isEmpty then none
  else
    let n := 4 + q.1 + 3 + ns.length
    some (s.take n, n)

/-- Embeds `re.findall(r'http[s]?://[^\s]+', text, re.IGNORECASE)`. -/
def findHttp (s : List Char) : List (List Char) := reFindall tryHttp false s

/-- Attempt for `www\.[^\s]+`. -/
def tryWww (s : List Char) : Option (List Char × ℕ) :=
  (matchLitCI (chars "www.") s).bind fun s1 =>
  let ns := s1.takeWhile (fun c => !isSpaceC c)
  if ns.isEmpty then none
  else
    let n := 4 + ns.length
    some (s.take n, n)

/-- Embeds `re.findall(r'www\.[^\s]+', text, re.IGNORECASE)`. -/
def findWww (s : List Char) : List (List Char) := reFindall tryWww false s

/-- Top-level-domain alternatives of the pattern
`\b\w+\.(tk|ml|ga|cf|gq|club|xyz)\b`, in source order. -/
def tldAlts : List (List Char) :=
  [chars "tk", chars "ml", chars "ga", chars "cf", chars "gq",
   chars "club", chars "xyz"]

/-- Attempt for `\b\w+\.(tk|ml|ga|cf|gq|club|xyz)\b`; `re.findall`
emits the capturing group (the domain suffix). -/
def tryTld (s : List Char) : Option (List Char × ℕ) :=
  let w := s.takeWhile isWordC
  if w.isEmpty then none
  else
    match s.drop w.length with
    | '.' :: s2 =>
      firstSome tldAlts fun alt =>
        match matchLitCI alt s2 with
        | some s3 =>
          if afterBoundary s3 then
            some (s2.take alt.length, w.length + 1 + alt.length)
          else none
        | none => none
    | _ => none

/-- Embeds `re.findall(r'\b\w+\.(tk|ml|ga|cf|gq|club|xyz)\b', text, re.IGNORECASE)`. -/
def findTld (s : List Char) : List (List Char) := reFindall tryTld true s

/-- Attempt for `\+?\d{10,15}` (no boundaries): an optional plus sign,
then ten to fifteen digits, greedy. -/
def tryPhonePlus (s : List Char) : Option (List Char × ℕ) :=
  match s with
  | [] => none
  | c :: s1 =>
    if c = '+' then
      let ds := s1.takeWhile isDigitC
      if 10 ≤ ds.length then
        let k := min ds.length 15
        some ('+' :: s1.take k, 1 + k)
      else none
    else
      let ds := (c :: s1).takeWhile isDigitC
      if 10 ≤ ds.length then
        let k := min ds.length 15
        some ((c :: s1).take k, k)
      else none

/-- Embeds `re.findall(r'\+?\d{10,15}', text, re.IGNORECASE)`. -/
def findPhonePlus (s : List Char) : List (List Char) :=
  reFindall tryPhonePlus false s

/-- Attempt for `\b91\d{10}\b`: the literal `91` followed by exactly ten
digits and a trailing boundary. -/
def try91 (s : List Char) : Option (List Char × ℕ) :=
  match s with
  | '9' :: '1' :: s2 =>
    if (s2.take 10).length = 10 ∧ (s2.take 10).all isDigitC ∧
        afterBoundary (s2.drop 10) then
      some ('9' :: '1' :: s2.take 10, 12)
    else none
  | _ => none

/-- Embeds `re.findall(r'\b91\d{10}\b', text, re.IGNORECASE)`. -/
def find91 (s : List Char) : List (List Char) := reFindall try91 true s

/-- Provider allow-list of `IntelligenceExtractor._is_valid_upi`
(`valid_banks` in the source). -/
def validBanks : List (List Char) :=
  [chars "paytm", chars "ybl", chars "oksbi", chars "okaxis", chars "upi",
   chars "gpay", chars "phonepe", chars "hdfc", chars "icici", chars "sbi",
   chars "axis", chars "airtel", chars "aubank"]

/-- Truth of Python `re.match` with a pattern of the form `^[class]+$`:
the run of class characters must cover the whole string, except that in
Python's default mode `$` also matches just before one trailing newline,
so a single final newline may be left unconsumed. -/
def pyFullMatch (p : Char → Bool) (s : List Char) : Bool :=
  (!s.isEmpty && s.all p) ||
  (decide (s.getLast? = some (Char.ofNat 10)) && !s.dropLast.isEmpty &&
    s.dropLast.all p)

/-- Embeds `IntelligenceExtractor._is_valid_upi`: the candidate must
contain `@` and split into exactly two parts on `@`; the username must
match `^[a-zA-Z0-9._-]+$` (under Python match semantics, where `$` also
accepts one trailing newline) and have length at least 2; the provider
must be on the allow-list (lower-cased) or match `^[a-zA-Z0-9]+$` (same
semantics) with length at least 3. -/
def is_valid_upi (s : List Char) : Bool :=
  if !containsSub ['@'] s then false
  else
    match pysplit '@' s with
    | [username, bank] =>
      if !pyFullMatch isUpiClassC username then false
      else if username.length < 2 then false
      else if validBanks.contains (lowerL bank) then true
      else if pyFullMatch isAlnumC bank && 3 ≤ bank.length then true
      else false
    | _ => false

/-- Result record of `IntelligenceExtractor.extract_from_text` (the
Python dict with the five intelligence keys). -/
structure Intelligence where
  bankAccounts : List (List Char)
  upiIds : List (List Char)
  phishingLinks : List (List Char)
  phoneNumbers : List (List Char)
  suspiciousKeywords : List (List Char)
deriving DecidableEq, Repr

/-- Suspicious-keyword table of `IntelligenceExtractor.__init__`. -/
def extractorKeywords : List (List Char) :=
  [chars "urgent", chars "immediately", chars "verify", chars "confirm",
   chars "suspended", chars "blocked", chars "expires", chars "act now",
   chars "click here", chars "limited time", chars "winner", chars "prize",
   chars "congratulations", chars "won", chars "claim", chars "refund",
   chars "reward", chars "bonus", chars "free", chars "offer",
   chars "update", chars "security alert", chars "authorize",
   chars "approve", chars "confirm identity"]

/-- Post-processing of `IntelligenceExtractor._extract_with_pattern`:
each match (or group) is stripped and dropped when empty. -/
def extractWith (ms : List (List Char)) : List (List Char) :=
  (ms.map pstrip).filter (fun m => !m.isEmpty)

/-- Raw bank-account candidates: the five `bank_account` patterns of the
source, in order (`\b\d{9,18}\b`, the card format, and the three
`lit[:\s]+(\d+)` capturing patterns). -/
def rawBankAccounts (s : List Char) : List (List Char) :=
  extractWith (findBare 9 18 s) ++ extractWith (findCard s) ++
  extractWith (findLitDigits (chars "account") s) ++
  extractWith (findLitDigits (chars "a/c") s) ++
  extractWith (findLitDigits (chars "acc") s)

/-- Provider literals of the ten provider-specific `upi_id` patterns, in
source order. -/
def providerLits : List (List Char) :=
  [chars "paytm", chars "ybl", chars "oksbi", chars "okaxis", chars "upi",
   chars "gpay", chars "phonepe", chars "sbi", chars "hdfc", chars "icici"]

/-- Raw payment-handle candidates: per pattern, the matches that pass
`_is_valid_upi` (the source filters each pattern's match list before
extending the result). -/
def rawUpiIds (s : List Char) : List (List Char) :=
  (extractWith (findUpiGeneric s)).filter is_valid_upi ++
  (providerLits.map fun lit => (extractWith (findProvider lit s)).filter is_valid_upi).flatten

/-- Raw phishing-link candidates: the three `phishing_link` patterns in
source order (the third emits its capturing group). -/
def rawPhishingLinks (s : List Char) : List (List Char) :=
  extractWith (findHttp s) ++ extractWith (findWww s) ++ extractWith (findTld s)

/-- Raw phone-number candidates: the three `phone_number` patterns, each
filtered by digit-only length between 10 and 15 (the source filters each
pattern's match list before extending the result). -/
def rawPhoneNumbers (s : List Char) : List (List Char) :=
  ((extractWith (findPhonePlus s)).filter
      (fun m => 10 ≤ digitLen m ∧ digitLen m ≤ 15)) ++
  ((extractWith (findBare 10 10 s)).filter
      (fun m => 10 ≤ digitLen m ∧ digitLen m ≤ 15)) ++
  ((extractWith (find91 s)).filter
      (fun m => 10 ≤ digitLen m ∧ digitLen m ≤ 15))

/-- Embeds `IntelligenceExtractor._clean_results`: length/format
validation per field and a final keyword deduplication. -/
def clean_results (r : Intelligence) : Intelligence :=
  { bankAccounts :=
      r.bankAccounts.filter (fun acc => 9 ≤ digitLen acc ∧ digitLen acc ≤ 18)
    upiIds := r.upiIds.filter is_valid_upi
    phishingLinks :=
      r.phishingLinks.filter (fun link =>
        (5 ≤ link.length ∧ link.length ≤ 500) ∧
        (startsWithL (chars "http://") link || startsWithL (chars "https://") link ||
         startsWithL (chars "www.") link))
    phoneNumbers :=
      r.phoneNumbers.filter (fun phone => 10 ≤ digitLen phone ∧ digitLen phone ≤ 15)
    suspiciousKeywords := dedup r.suspiciousKeywords }

/-- Embeds `IntelligenceExtractor.extract_from_text`: per-field pattern
extraction, per-field deduplication, then `_clean_results`. -/
def extract_from_text (s : List Char) : Intelligence :=
  clean_results
    { bankAccounts := dedup (rawBankAccounts s)
      upiIds := dedup (rawUpiIds s)
      phishingLinks := dedup (rawPhishingLinks s)
      phoneNumbers := dedup (rawPhoneNumbers s)
      suspiciousKeywords :=
        dedup (extractorKeywords.filter (fun k => containsSub k (lowerL s))) }

/-- Character class `[a-zA-Z0-9._%+-]` of the email pattern's local part. -/
def isEmailLocalC (c : Char) : Bool :=
  c.isAlphanum || c = '.' || c = '_' || c = '%' || c = '+' || c = '-'

/-- Character class `[a-zA-Z0-9.-]` of the email pattern's domain part. -/
def isEmailDomC (c : Char) : Bool := c.isAlphanum || c = '.' || c = '-'

/-- Backtracking over the greedy domain run of the email pattern
`[a-zA-Z0-9.-]+\.[a-zA-Z]{2,}\b`: retreat the run length until the
required dot, at least two letters and the trailing boundary fit.
Returns the number of characters consumed from the domain onward. -/
def tryEmailDom (s2 : List Char) : ℕ → Option ℕ
  | 0 => none
  | k + 1 =>
    if (s2.take (k + 1)).length = k + 1 ∧ (s2.take (k + 1)).all isEmailDomC then
      match s2.drop (k + 1) with
      | '.' :: s3 =>
        let ls := s3.takeWhile isAlphaC
        if 2 ≤ ls.length ∧ afterBoundary (s3.drop ls.length) then
          some (k + 1 + 1 + ls.length)
        else tryEmailDom s2 k
      | _ => tryEmailDom s2 k
    else tryEmailDom s2 k

/-- Attempt for the email pattern
`\b[a-zA-Z0-9._%+-]+@[a-zA-Z0-9.-]+\.[a-zA-Z]{2,}\b`.  As with the
generic handle pattern, the leading `\b` forces the first matched
character to be a word character. -/
def tryEmail (s : List Char) : Option (List Char × ℕ) :=
  let u := s.takeWhile isEmailLocalC
  if u.isEmpty then none
  else if !(u.head?.elim false isWordC) then none
  else
    match s.drop u.length with
    | '@' :: s2 =>
      match tryEmailDom s2 (s2.takeWhile isEmailDomC).length with
      | some n2 =>
        let n := u.length + 1 + n2
        some (s.take n, n)
      | none => none
    | _ => none

/-- Embeds `re.findall` of the detector's email pattern. -/
def findEmail (s : List Char) : List (List Char) := reFindall tryEmail true s

/-- Mojibake rupee sequence appearing verbatim in `Scam_detector.py`
(the bytes of U+20B9 mis-decoded): U+00E2, U+201A, U+00B9. -/
def rupeeSeq : List Char := [Char.ofNat 226, Char.ofNat 8218, Char.ofNat 185]

/-- After the rupee sequence: `\s?\d+`, an optional whitespace character
then at least one digit (consuming the whitespace and failing on the
digit leaves no successful backtracking alternative). -/
def optSpaceDigit : List Char → Bool
  | [] => false
  | c :: rest =>
    if isDigitC c then true
    else if isSpaceC c then (rest.head?.elim false isDigitC)
    else false

/-- Existence of a match of the detector pattern `â‚¹\s?\d+` (mojibake
rupee amount); `re.IGNORECASE` also accepts the upper-case variant
U+00C2 of the first character, the other two have no case. -/
def existsRupee : List Char → Bool
  | c1 :: rest =>
    (match rest with
     | c2 :: c3 :: rest3 =>
       (c1 = Char.ofNat 226 || c1 = Char.ofNat 194) && c2 = Char.ofNat 8218 &&
       c3 = Char.ofNat 185 && optSpaceDigit rest3
     | _ => false)
    || existsRupee rest
  | [] => false

/-- After the (case-insensitive) literal `Rs`: `\.?\s?\d+`, an optional
dot, an optional whitespace character, then at least one digit; both
optionals are deterministic since a failed continuation cannot be
repaired by giving them back. -/
def afterRs (s : List Char) : Bool :=
  let s1 := match s with
    | '.' :: rest => rest
    | _ => s
  optSpaceDigit s1

/-- Existence of a match of the detector pattern `Rs\.?\s?\d+`
(case-insensitive). -/
def existsRs : List Char → Bool
  | c1 :: rest =>
    (match rest with
     | c2 :: rest2 => lowerC c1 = 'r' && lowerC c2 = 's' && afterRs rest2
     | [] => false)
    || existsRs rest
  | [] => false

/-- Critical-keyword table of `ScamDetector.__init__` (weight 25 each). -/
def criticalKeywords : List (List Char) :=
  [chars "urgent", chars "immediately", chars "suspended", chars "blocked",
   chars "expire", chars "verify now", chars "act now", chars "limited time",
   chars "last chance", chars "account locked", chars "unauthorized",
   chars "security alert", chars "confirm identity", chars "update payment",
   chars "verify account"]

/-- Warning-keyword table of `ScamDetector.__init__` (weight 10 each). -/
def warningKeywords : List (List Char) :=
  [chars "verify", chars "confirm", chars "click here", chars "link",
   chars "prize", chars "won", chars "congratulations", chars "selected",
   chars "winner", chars "free", chars "claim", chars "refund",
   chars "reward", chars "bonus", chars "offer", chars "discount",
   chars "bank", chars "account", chars "password", chars "otp",
   chars "pin", chars "cvv", chars "upi", chars "payment", chars "transfer",
   chars "credit card", chars "debit card", chars "send money",
   chars "send amount", chars "pay now", chars "unlock"]

/-- Urgency phrase table of `ScamDetector._has_urgency`. -/
def urgencyPhrases : List (List Char) :=
  [chars "within 24 hours", chars "within 48 hours", chars "today",
   chars "right now", chars "expires soon", chars "limited time",
   chars "hurry", chars "quick", chars "fast", chars "immediately",
   chars "urgent", chars "asap", chars "right away"]

/-- Threat phrase table of `ScamDetector._has_threats`. -/
def threatPhrases : List (List Char) :=
  [chars "will be blocked", chars "will be suspended", chars "will be closed",
   chars "will be locked", chars "will expire", chars "lose access",
   chars "lose account", chars "legal action", chars "penalized",
   chars "charged", chars "fine"]

/-- Payment phrase table of `ScamDetector._has_payment_request`; the
third entry is the mojibake `send â‚¹` as written in the source. -/
def paymentPhrases : List (List Char) :=
  [chars "send money", chars "send amount", chars "send " ++ rupeeSeq,
   chars "send rs", chars "pay now", chars "payment to", chars "transfer to",
   chars "deposit to", chars "send to upi", chars "send to account"]

/-- Embeds `ScamDetector._has_urgency` on the lower-cased message. -/
def has_urgency (low : List Char) : Bool :=
  urgencyPhrases.any (fun p => containsSub p low)

/-- Embeds `ScamDetector._has_threats` on the lower-cased message. -/
def has_threats (low : List Char) : Bool :=
  threatPhrases.any (fun p => containsSub p low)

/-- Embeds `ScamDetector._has_payment_request` on the lower-cased message. -/
def has_payment_request (low : List Char) : Bool :=
  paymentPhrases.any (fun p => containsSub p low)

/-- Pattern-name indicators fired by the nine `suspicious_patterns` of
the detector (each pattern contributes once, with the name given by
`ScamDetector._pattern_name`, in source order). -/
def detectorPatternHits (s : List Char) : List (List Char) :=
  (if !(reFindall tryHttp true s).isEmpty then [chars "URL"] else []) ++
  (if !(findBare 10 16 s).isEmpty then [chars "Account/Card number"] else []) ++
  (if !(findCard s).isEmpty then [chars "Card format"] else []) ++
  (if !(findEmail s).isEmpty then [chars "Email"] else []) ++
  (if !(findUpiGeneric s).isEmpty then [chars "UPI ID"] else []) ++
  (if !(findPhonePlus s).isEmpty then [chars "Phone number"] else []) ++
  (if !(findBare 6 6 s).isEmpty then [chars "OTP pattern"] else []) ++
  (if existsRupee s then [chars "Rupee amount"] else []) ++
  (if existsRs s then [chars "Rs amount"] else [])

/-- Indicator text for a fired critical keyword. -/
def criticalIndicator (k : List Char) : List Char :=
  chars "Critical keyword: " ++ [squote] ++ k ++ [squote]

/-- Indicator text for a fired warning keyword. -/
def warningIndicator (k : List Char) : List Char :=
  chars "Warning keyword: " ++ [squote] ++ k ++ [squote]

/-- Total weight accumulated by `ScamDetector.detect_scam`: 25 per fired
critical keyword, 10 per fired warning keyword, 15 per fired pattern, 20
for urgency, 25 for threats, 20 for a payment request, 5 for fewer than
5 words, 10 for more than 100 words, 10 for three or more `!`. -/
def score_of (s : List Char) : ℕ :=
  let low := lowerL s
  let wc := (pwords s).length
  25 * (criticalKeywords.filter (fun k => containsSub k low)).length +
  10 * (warningKeywords.filter (fun k => containsSub k low)).length +
  15 * (detectorPatternHits s).length +
  (if has_urgency low then 20 else 0) +
  (if has_threats low then 25 else 0) +
  (if has_payment_request low then 20 else 0) +
  (if wc < 5 then 5 else if 100 < wc then 10 else 0) +
  (if 3 ≤ countChar '!' s then 10 else 0)

/-- Indicator list produced by `ScamDetector.detect_scam`, in evaluation
order. -/
def indicators_of (s : List Char) : List (List Char) :=
  let low := lowerL s
  let wc := (pwords s).length
  (criticalKeywords.filter (fun k => containsSub k low)).map criticalIndicator ++
  (warningKeywords.filter (fun k => containsSub k low)).map warningIndicator ++
  (detectorPatternHits s).map (fun n => chars "Suspicious pattern: " ++ n) ++
  (if has_urgency low then [chars "Urgency detected"] else []) ++
  (if has_threats low then [chars "Threat language detected"] else []) ++
  (if has_payment_request low then [chars "Payment request detected"] else []) ++
  (if wc < 5 then [chars "Very short message"]
   else if 100 < wc then [chars "Very long message"] else []) ++
  (if 3 ≤ countChar '!' s then [chars "Multiple exclamation marks"] else [])

/-- Normalized confidence of `ScamDetector.detect_scam` before rounding:
`min(score / 100, 1.0)` (`mkRat w 100` is exactly `w / 100`). -/
def confidence_of (w : ℕ) : ℚ := min (mkRat w 100) 1

/-- Scam verdict of `ScamDetector.detect_scam`:
`is_scam = confidence >= 0.5`. -/
def is_scam_of (w : ℕ) : Bool := decide (mkRat 1 2 ≤ confidence_of w)

/-- Python `round(x, 2)` for the nonnegative values arising in this code
base: `floor(x * 100 + 1/2) / 100`, computed on numerator and
denominator.  Every rounded value here is an exact multiple of 1/100, so
`x * 100` is an integer, no tie ever occurs and this agrees with
Python's banker rounding of the corresponding floats. -/
def pyRound2 (q : ℚ) : ℚ :=
  mkRat (((200 * q.num.toNat + q.den) / (2 * q.den) : ℕ) : ℤ) 100

/-- Embeds `ScamDetector.detect_scam` (the `conversation_history`
parameter of the source is unused by the method body and therefore
omitted): returns `(is_scam, round(confidence, 2), indicators)`. -/
def detect_scam (s : List Char) : Bool × ℚ × List (List Char) :=
  (is_scam_of (score_of s), pyRound2 (confidence_of (score_of s)), indicators_of s)

/-- Embeds `ConversationAgent.generate_agent_notes`: sequential appends
driven by indicator-substring tests and intelligence presence, the
default note when nothing fired, joined with a semicolon separator. -/
def generate_agent_notes (scamIndicators : List (List Char))
    (intelligence : Intelligence) : List Char :=
  let n1 :=
    if scamIndicators.any (fun i => containsSub (chars "urgent") (lowerL i)) then
      [chars "Used urgency tactics"]
    else []
  let n2 := n1 ++
    (if scamIndicators.any (fun i => containsSub (chars "threat") (lowerL i)) then
      [chars "Made threats about account suspension/blocking"]
    else [])
  let n3 := n2 ++
    (if scamIndicators.any (fun i =>
        containsSub (chars "url") (lowerL i) || containsSub (chars "link") (lowerL i)) then
      [chars "Included suspicious links"]
    else [])
  let n4 := n3 ++
    (if !intelligence.bankAccounts.isEmpty then
      [chars "Requested bank account information"]
    else [])
  let n5 := n4 ++
    (if !intelligence.upiIds.isEmpty then
      [chars "Attempted UPI payment redirection"]
    else [])
  let n6 := n5 ++
    (if !intelligence.phishingLinks.isEmpty then
      [chars "Shared phishing URLs"]
    else [])
  let n7 := n6 ++
    (if !intelligence.phoneNumbers.isEmpty then
      [chars "Shared contact numbers"]
    else [])
  let n8 := if n7.isEmpty then [chars "Standard scam pattern detected"] else n7
  pjoin (chars "; ") n8

/-- Session state, following the dictionary created by
`SessionManager.get_or_create_session`.  The timestamp fields and the
conversation log (whose entries mix the inbound texts with randomly
chosen decoy replies) feed none of the verified claims and are omitted
from the state. -/
structure Session where
  message_count : ℕ
  scam_detected : Bool
  scam_confidence : ℚ
  scam_indicators : List (List Char)
  intelligence : Intelligence
  agent_notes : List Char
  finalized : Bool
deriving DecidableEq, Repr

/-- Empty intelligence dictionary of a fresh session. -/
def emptyIntel : Intelligence :=
  { bankAccounts := [], upiIds := [], phishingLinks := [], phoneNumbers := [],
    suspiciousKeywords := [] }

/-- Fresh session as created by `SessionManager.get_or_create_session`. -/
def initSession : Session :=
  { message_count := 0, scam_detected := false, scam_confidence := 0,
    scam_indicators := [], intelligence := emptyIntel, agent_notes := [],
    finalized := false }

/-- Field-wise union with deduplication performed by `analyze_message`
after extending the session intelligence with one extraction result. -/
def mergeIntel (old new : Intelligence) : Intelligence :=
  { bankAccounts := dedup (old.bankAccounts ++ new.bankAccounts)
    upiIds := dedup (old.upiIds ++ new.upiIds)
    phishingLinks := dedup (old.phishingLinks ++ new.phishingLinks)
    phoneNumbers := dedup (old.phoneNumbers ++ new.phoneNumbers)
    suspiciousKeywords := dedup (old.suspiciousKeywords ++ new.suspiciousKeywords) }

/-- Embeds one `/analyze` call of `app.py` (`analyze_message`) acting on
a session, for an already validated, stripped, non-empty message text:
increment the count; while `message_count <= 5` and not yet detected,
run the detector and latch detection when `is_scam and confidence >
0.5`; extend and deduplicate the intelligence; regenerate the agent
notes when detected; finally report whether the GUVI callback
(`send_final_result_to_guvi`) was invoked, which `analyze_message` does
whenever `scam_detected and message_count >= 3` holds after the update.
Returns the updated session and the callback-invocation flag. -/
def stepSession (s : Session) (msg : List Char) : Session × Bool :=
  let mc := s.message_count + 1
  let d := detect_scam msg
  let newDetect := decide (mc ≤ 5) && !s.scam_detected &&
    (d.1 && decide (mkRat 1 2 < d.2.1))
  let detected := s.scam_detected || newDetect
  let conf := if newDetect then d.2.1 else s.scam_confidence
  let inds := if newDetect then d.2.2 else s.scam_indicators
  let intel := mergeIntel s.intelligence (extract_from_text msg)
  let notes := if detected then generate_agent_notes inds intel else s.agent_notes
  ({ message_count := mc, scam_detected := detected, scam_confidence := conf,
     scam_indicators := inds, intelligence := intel, agent_notes := notes,
     finalized := s.finalized },
   detected && decide (3 ≤ mc))

/-- Process a sequence of inbound messages for one session. -/
def runSession (s : Session) : List (List Char) → Session
  | [] => s
  | m :: ms => runSession (stepSession s m).1 ms

/-- Number of GUVI callback invocations over a sequence of inbound
messages for one session. -/
def guviCount (s : Session) : List (List Char) → ℕ
  | [] => 0
  | m :: ms =>
    (if (stepSession s m).2 then 1 else 0) + guviCount (stepSession s m).1 ms

/-- Modelled from the spec: the spec's FinalizationPolicy
(`shouldFinalize`, section 4.3) is absent from the source, which instead
triggers its callback from the condition embedded in `stepSession`.
Following the spec's words: true only if `scamDetected`, and
`messageCount` has reached the maximum (15), or substantial intelligence
is present and `messageCount` has reached 5 + 3 = 8, or `scamConfidence`
has reached 0.8 and substantial intelligence is present; substantial
intelligence means a non-empty field among
bankAccount/paymentHandle/phishingLink/phoneNumber. -/
def specShouldFinalize (s : Session) : Bool :=
  let substantial :=
    !s.intelligence.bankAccounts.isEmpty || !s.intelligence.upiIds.isEmpty ||
    !s.intelligence.phishingLinks.isEmpty || !s.intelligence.phoneNumbers.isEmpty
  s.scam_detected &&
    (decide (15 ≤ s.message_count) ||
     (substantial && decide (8 ≤ s.message_count)) ||
     (decide (mkRat 8 10 ≤ s.scam_confidence) && substantial))

/-- Note-generation rule exactly as the claim states it (spec section
4.3), including the claim's wording "Attempted payment redirection" for
a non-empty paymentHandle set; used to compare against the source's
`generate_agent_notes`. -/
def specNotesClaim (scamIndicators : List (List Char))
    (intelligence : Intelligence) : List Char :=
  let ns :=
    (if scamIndicators.any (fun i => containsSub (chars "urgent") (lowerL i)) then
      [chars "Used urgency tactics"] else []) ++
    (if scamIndicators.any (fun i => containsSub (chars "threat") (lowerL i)) then
      [chars "Made threats about account suspension/blocking"] else []) ++
    (if scamIndicators.any (fun i =>
        containsSub (chars "url") (lowerL i) || containsSub (chars "link") (lowerL i)) then
      [chars "Included suspicious links"] else []) ++
    (if !intelligence.bankAccounts.isEmpty then
      [chars "Requested bank account information"] else []) ++
    (if !intelligence.upiIds.isEmpty then
      [chars "Attempted payment redirection"] else []) ++
    (if !intelligence.phishingLinks.isEmpty then
      [chars "Shared phishing URLs"] else []) ++
    (if !intelligence.phoneNumbers.isEmpty then
      [chars "Shared contact numbers"] else [])
  pjoin (chars "; ")
    (if ns.isEmpty then [chars "Standard scam pattern detected"] else ns)

/-- Note-generation rule of the claim amended at the single point the
source deviates: a non-empty paymentHandle set contributes
"Attempted UPI payment redirection" (as the source writes it). -/
def specNotesAmended (scamIndicators : List (List Char))
    (intelligence : Intelligence) : List Char :=
  let ns :=
    (if scamIndicators.any (fun i => containsSub (chars "urgent") (lowerL i)) then
      [chars "Used urgency tactics"] else []) ++
    (if scamIndicators.any (fun i => containsSub (chars "threat") (lowerL i)) then
      [chars "Made threats about account suspension/blocking"] else []) ++
    (if scamIndicators.any (fun i =>
        containsSub (chars "url") (lowerL i) || containsSub (chars "link") (lowerL i)) then
      [chars "Included suspicious links"] else []) ++
    (if !intelligence.bankAccounts.isEmpty then
      [chars "Requested bank account information"] else []) ++
    (if !intelligence.upiIds.isEmpty then
      [chars "Attempted UPI payment redirection"] else []) ++
    (if !intelligence.phishingLinks.isEmpty then
      [chars "Shared phishing URLs"] else []) ++
    (if !intelligence.phoneNumbers.isEmpty then
      [chars "Shared contact numbers"] else [])
  pjoin (chars "; ")
    (if ns.isEmpty then [chars "Standard scam pattern detected"] else ns)

/-- Payment-handle acceptance condition exactly as the claim words it:
exactly one `@`; the local part (the characters before the `@`) matches
`[A-Za-z0-9._-]+` and has length at least 2; the provider part (the
characters after the `@`) is on the allow-list case-insensitively or is
alphanumeric with length at least 3. -/
def specHandleValid (s : List Char) : Bool :=
  let localPart := s.takeWhile (fun c => c ≠ '@')
  let provider := (s.dropWhile (fun c => c ≠ '@')).drop 1
  decide (countChar '@' s = 1) &&
  (!localPart.isEmpty && localPart.all isUpiClassC) &&
  decide (2 ≤ localPart.length) &&
  (validBanks.contains (lowerL provider) ||
   ((!provider.isEmpty && provider.all isAlnumC) && decide (3 ≤ provider.length)))

/-- Payment-handle acceptance condition of the claim amended at the one
point the source deviates: the two part checks are Python regex matches
of `^[a-zA-Z0-9._-]+$` and `^[a-zA-Z0-9]+$`, whose `$` also accepts one
trailing newline, rather than plain character-class runs.  On candidates
without a newline the two conditions agree. -/
def specHandleValidAmended (s : List Char) : Bool :=
  let localPart := s.takeWhile (fun c => c ≠ '@')
  let provider := (s.dropWhile (fun c => c ≠ '@')).drop 1
  decide (countChar '@' s = 1) &&
  pyFullMatch isUpiClassC localPart &&
  decide (2 ≤ localPart.length) &&
  (validBanks.contains (lowerL provider) ||
   (pyFullMatch isAlnumC provider && decide (3 ≤ provider.length)))

/-- One message step never changes the `finalized` flag:
`analyze_message` reads no such key and writes none. -/
theorem step_finalized (s : Session) (m : List Char) :
    (stepSession s m).1.finalized = s.finalized := rfl

/-- One message step increments the message count. -/
theorem step_count (s : Session) (m : List Char) :
    (stepSession s m).1.message_count = s.message_count + 1 := rfl

/-- The callback flag of a step is exactly "detected and count at least
3" on the updated session. -/
theorem step_flag (s : Session) (m : List Char) :
    (stepSession s m).2 =
      ((stepSession s m).1.scam_detected &&
        decide (3 ≤ (stepSession s m).1.message_count)) := rfl

/-- A detected session stays detected after one step. -/
theorem step_detected_true {s : Session} (m : List Char)
    (h : s.scam_detected = true) :
    (stepSession s m).1.scam_detected = true := by
  simp [stepSession, h]

/-- Once detected, one step changes neither the stored confidence nor
the stored indicator list (the detection branch is guarded by
`not scam_detected`). -/
theorem step_frozen {s : Session} (m : List Char)
    (h : s.scam_detected = true) :
    (stepSession s m).1.scam_confidence = s.scam_confidence ∧
    (stepSession s m).1.scam_indicators = s.scam_indicators := by
  constructor <;> simp [stepSession, h]

/-- Processing a concatenation processes the pieces in order. -/
theorem run_append (s : Session) (ms1 ms2 : List (List Char)) :
    runSession s (ms1 ++ ms2) = runSession (runSession s ms1) ms2 := by
  induction ms1 generalizing s with
  | nil => rfl
  | cons m ms ih => simp [runSession, ih]

/-- A detected session stays detected over any message sequence. -/
theorem run_detected {s : Session} (ms : List (List Char))
    (h : s.scam_detected = true) :
    (runSession s ms).scam_detected = true := by
  induction ms generalizing s with
  | nil => exact h
  | cons m ms ih => exact ih (step_detected_true m h)

/-- Once detected, the stored confidence and indicators never change
again over any message sequence. -/
theorem run_frozen {s : Session} (ms : List (List Char))
    (h : s.scam_detected = true) :
    (runSession s ms).scam_confidence = s.scam_confidence ∧
    (runSession s ms).scam_indicators = s.scam_indicators := by
  induction ms generalizing s with
  | nil => exact ⟨rfl, rfl⟩
  | cons m ms ih =>
    have hs := step_frozen (s := s) m h
    have := ih (s := (stepSession s m).1) (step_detected_true m h)
    exact ⟨this.1.trans hs.1, this.2.trans hs.2⟩

/-- The `finalized` flag never changes over any message sequence. -/
theorem run_finalized (s : Session) (ms : List (List Char)) :
    (runSession s ms).finalized = s.finalized := by
  induction ms generalizing s with
  | nil => rfl
  | cons m ms ih => exact (ih (stepSession s m).1).trans (step_finalized s m)

/-- Once a session is detected and has received at least two messages,
every further message triggers the callback (after the step the count is
at least 3 and detection persists). -/
theorem guvi_saturates {s : Session} (ms : List (List Char))
    (h : s.scam_detected = true) (h2 : 2 ≤ s.message_count) :
    guviCount s ms = ms.length := by
  induction ms generalizing s with
  | nil => rfl
  | cons m ms ih =>
    have hd : (stepSession s m).1.scam_detected = true := step_detected_true m h
    have hflag : (stepSession s m).2 = true := by
      rw [step_flag, hd, step_count]
      simp
      omega
    rw [guviCount, hflag]
    have := ih (s := (stepSession s m).1) hd (by rw [step_count]; omega)
    simp [this]
    omega

/-- Capped confidence as a single fraction: `min(w/100, 1) = min(w,100)/100`. -/
theorem confidence_of_eq (w : ℕ) :
    confidence_of w = mkRat ((min w 100 : ℕ) : ℤ) 100 := by
  rcases le_total w 100 with h | h
  · rw [Nat.min_eq_left h, confidence_of, min_eq_left]
    rw [Rat.mkRat_eq_div]
    rw [div_le_one (by norm_num)]
    exact_mod_cast h
  · rw [Nat.min_eq_right h, confidence_of, min_eq_right]
    · rw [Rat.mkRat_eq_div]
      norm_num
    · rw [Rat.mkRat_eq_div, le_div_iff₀ (by norm_num)]
      have : (100 : ℚ) ≤ (w : ℚ) := by exact_mod_cast h
      push_cast
      linarith

/-- Rounding to two decimals is the identity on exact hundredths. -/
theorem pyRound2_id (k : ℕ) : pyRound2 (mkRat k 100) = mkRat k 100 := by
  set q : ℚ := mkRat k 100 with hqdef
  have hq : q = (k : ℚ) / 100 := by
    rw [hqdef, Rat.mkRat_eq_div]
    push_cast
    ring
  have hq0 : 0 ≤ q := by rw [hq]; positivity
  have hnum : 0 ≤ q.num := Rat.num_nonneg.mpr hq0
  have hden : 0 < q.den := q.pos
  have hcross : (q.num : ℚ) * 100 = (k : ℚ) * (q.den : ℚ) := by
    have h1 : (q.num : ℚ) / (q.den : ℚ) = (k : ℚ) / 100 := by
      rw [Rat.num_div_den, hq]
    have hd : ((q.den : ℚ)) ≠ 0 := by positivity
    field_simp at h1
    linarith
  have hcrossZ : q.num * 100 = (k : ℤ) * (q.den : ℤ) := by exact_mod_cast hcross
  have htn : (q.num.toNat : ℤ) = q.num := Int.toNat_of_nonneg hnum
  have hcrossN : q.num.toNat * 100 = k * q.den := by
    have h2 : (q.num.toNat : ℤ) * 100 = (k : ℤ) * (q.den : ℤ) := by
      rw [htn]; exact hcrossZ
    exact_mod_cast h2
  have hmain : (200 * q.num.toNat + q.den) / (2 * q.den) = k := by
    have h200 : 200 * q.num.toNat + q.den = q.den * (2 * k + 1) := by
      have e : q.den * (2 * k + 1) = 2 * (k * q.den) + q.den := by ring
      rw [e]
      linarith
    have e2 : 2 * q.den = q.den * 2 := by ring
    rw [h200, e2, Nat.mul_div_mul_left _ _ hden]
    omega
  rw [pyRound2, hmain]

/-- Number of pieces of a one-character split is one more than the
number of separator occurrences. -/
theorem pysplit_length (c : Char) (s : List Char) :
    (pysplit c s).length = countChar c s + 1 := by
  induction s with
  | nil => simp [pysplit, countChar]
  | cons x xs ih =>
    by_cases hx : x = c
    · subst hx
      rw [pysplit, if_pos rfl]
      rw [List.length_cons, ih]
      have : countChar x (x :: xs) = countChar x xs + 1 := by
        simp [countChar, List.filter]
      omega
    · rw [pysplit]
      simp only [if_neg hx]
      have hc : countChar c (x :: xs) = countChar c xs := by
        simp [countChar, List.filter, hx]
      cases hp : pysplit c xs with
      | nil => rw [hp] at ih; simp at ih
      | cons h t =>
        rw [hp] at ih
        rw [List.length_cons] at ih ⊢
        rw [hc]
        omega

/-- A text without the separator splits into itself alone. -/
theorem pysplit_zero {c : Char} {s : List Char} (h : countChar c s = 0) :
    pysplit c s = [s] := by
  induction s with
  | nil => rfl
  | cons x xs ih =>
    by_cases hx : x = c
    · exfalso
      subst hx
      simp [countChar, List.filter] at h
    · rw [pysplit]
      simp only [if_neg hx]
      have hxs : countChar c xs = 0 := by
        simpa [countChar, List.filter, hx] using h
      rw [ih hxs]

/-- A text with exactly one separator splits into the part before it and
the part after it. -/
theorem pysplit_one {c : Char} {s : List Char} (h : countChar c s = 1) :
    pysplit c s =
      [s.takeWhile (fun d => d ≠ c), (s.dropWhile (fun d => d ≠ c)).drop 1] := by
  induction s with
  | nil => simp [countChar] at h
  | cons x xs ih =>
    by_cases hx : x = c
    · subst hx
      have h0 : countChar x xs = 0 := by
        have : countChar x (x :: xs) = countChar x xs + 1 := by
          simp [countChar, List.filter]
        omega
      rw [pysplit, if_pos rfl, pysplit_zero h0]
      simp [List.takeWhile, List.dropWhile]
    · have h1 : countChar c xs = 1 := by
        have : countChar c (x :: xs) = countChar c xs := by
          simp [countChar, List.filter, hx]
        omega
      rw [pysplit]
      simp only [if_neg hx]
      rw [ih h1]
      simp [List.takeWhile, List.dropWhile, hx]

/-- Containment of a single character is positivity of its count. -/
theorem containsSub_single (c : Char) (s : List Char) :
    containsSub [c] s = decide (countChar c s ≠ 0) := by
  induction s with
  | nil => simp [containsSub, countChar]
  | cons d rest ih =>
    rw [containsSub, ih]
    by_cases hd : d = c
    · subst hd
      have : countChar d (d :: rest) = countChar d rest + 1 := by
        simp [countChar, List.filter]
      simp [List.isPrefixOf, this]
    · have : countChar c (d :: rest) = countChar c rest := by
        simp [countChar, List.filter, hd]
      simp only [List.isPrefixOf, this]
      simp
      intro h
      exact absurd h.symm hd

/-- The source's `_is_valid_upi` agrees with the claim's characterization
(exactly one `@`, validated local part of length at least 2, provider on
the allow-list or alphanumeric of length at least 3). -/
theorem is_valid_upi_eq_spec_amended (s : List Char) :
    is_valid_upi s = specHandleValidAmended s := by
  rcases hc : countChar '@' s with _ | n
  · have hcs : containsSub ['@'] s = false := by
      rw [containsSub_single, hc]
      simp
    rw [is_valid_upi, specHandleValidAmended]
    simp [hcs, hc]
  · rcases n with _ | m
    · have hcs : containsSub ['@'] s = true := by
        rw [containsSub_single, hc]
        simp
      have hsp := pysplit_one (c := '@') (s := s) hc
      have hd1 : decide (countChar '@' s = 1) = true := by
        rw [hc]
        simp
      rw [is_valid_upi, specHandleValidAmended]
      rw [hcs, hsp, hd1]
      simp only [Bool.not_true, Bool.false_eq_true, if_false, Bool.true_and]
      cases hE : pyFullMatch isUpiClassC (s.takeWhile (fun d => d ≠ '@')) with
      | false => simp
      | true =>
        simp only [Bool.not_true, Bool.false_eq_true, if_false, Bool.true_and]
        rcases Nat.lt_or_ge (s.takeWhile (fun d => d ≠ '@')).length 2 with hL | hL
        · have hd2 : decide (2 ≤ (s.takeWhile (fun d => d ≠ '@')).length) = false :=
            decide_eq_false (by omega)
          rw [if_pos hL, hd2]
          simp
        · have hd2 : decide (2 ≤ (s.takeWhile (fun d => d ≠ '@')).length) = true :=
            decide_eq_true hL
          rw [if_neg (by omega), hd2]
          simp only [Bool.true_and]
          cases hB : validBanks.contains
              (lowerL ((s.dropWhile (fun d => d ≠ '@')).drop 1)) with
          | true => simp
          | false =>
            simp only [Bool.false_or, if_false, Bool.false_eq_true]
            cases hP : (pyFullMatch isAlnumC ((s.dropWhile (fun d => d ≠ '@')).drop 1) &&
                decide (3 ≤ ((s.dropWhile (fun d => d ≠ '@')).drop 1).length)) with
            | true => simp
            | false => simp
    · have hlen := pysplit_length '@' s
      rw [hc] at hlen
      have hcs : containsSub ['@'] s = true := by
        rw [containsSub_single, hc]
        simp
      have hd1 : decide (countChar '@' s = 1) = false := by
        rw [hc]
        simp
      rw [is_valid_upi, specHandleValidAmended]
      rw [hcs, hd1]
      simp only [Bool.not_true, Bool.false_eq_true, if_false, Bool.false_and]
      cases hp : pysplit '@' s with
      | nil => rfl
      | cons a t =>
        cases t with
        | nil => rfl
        | cons b t2 =>
          cases t2 with
          | nil =>
            rw [hp] at hlen
            simp only [List.length_cons, List.length_nil] at hlen
            exact absurd hlen (by omega)
          | cons d t3 => rfl

/-- A Python anchored match over a newline-free string is just a full
class run. -/
theorem pyFullMatch_no_nl {p : Char → Bool} {t : List Char}
    (h : ∀ c ∈ t, c ≠ Char.ofNat 10) :
    pyFullMatch p t = (!t.isEmpty && t.all p) := by
  rcases List.eq_nil_or_concat t with rfl | ⟨l, a, rfl⟩
  · rfl
  · rw [List.concat_eq_append, pyFullMatch]
    have ha : a ≠ Char.ofNat 10 := h a (by simp)
    rw [List.getLast?_concat]
    simp [ha]

/-- On newline-free candidates the amended acceptance condition is the
claim's original one. -/
theorem specHandleValidAmended_no_nl {s : List Char}
    (h : ∀ c ∈ s, c ≠ Char.ofNat 10) :
    specHandleValidAmended s = specHandleValid s := by
  rw [specHandleValidAmended, specHandleValid]
  rw [pyFullMatch_no_nl
    (fun c hc => h c ((List.takeWhile_sublist _).subset hc))]
  rw [pyFullMatch_no_nl
    (fun c hc => h c ((List.dropWhile_sublist _).subset
      (List.drop_subset 1 _ hc)))]

/-- The source's note generator agrees with the claim's rule amended at
the paymentHandle wording. -/
theorem generate_agent_notes_eq_amended (inds : List (List Char))
    (intel : Intelligence) :
    generate_agent_notes inds intel = specNotesAmended inds intel := by
  rw [generate_agent_notes, specNotesAmended]

/-- Digits are word characters. -/
theorem digit_word {c : Char} (h : isDigitC c = true) : isWordC c = true := by
  simp only [isDigitC] at h
  simp [isWordC, Char.isAlphanum, h]

/-- Letters and digits are word characters. -/
theorem alnum_word {c : Char} (h : isAlnumC c = true) : isWordC c = true := by
  simp only [isAlnumC] at h
  simp [isWordC, h]

/-- Letters and digits are handle-class characters. -/
theorem alnum_upiclass {c : Char} (h : isAlnumC c = true) : isUpiClassC c = true := by
  simp only [isAlnumC] at h
  simp [isUpiClassC, h]

/-- A digit is not whitespace. -/
theorem digit_not_space {c : Char} (h : isDigitC c = true) : isSpaceC c = false := by
  simp only [isSpaceC, Bool.or_eq_false_iff]
  refine ⟨⟨⟨⟨⟨?_, ?_⟩, ?_⟩, ?_⟩, ?_⟩, ?_⟩ <;>
    · simp only [decide_eq_false_iff_not]
      intro he
      rw [he] at h
      exact absurd h (by decide)

/-- A digit is not a dash. -/
theorem digit_ne_dash {c : Char} (h : isDigitC c = true) : c ≠ '-' := by
  intro he
  rw [he] at h
  exact absurd h (by decide)

/-- A digit is not a plus sign. -/
theorem digit_ne_plus {c : Char} (h : isDigitC c = true) : c ≠ '+' := by
  intro he
  rw [he] at h
  exact absurd h (by decide)

/-- Lower-casing fixes digits. -/
theorem digit_lower {c : Char} (h : isDigitC c = true) : lowerC c = c := by
  rw [lowerC, if_neg]
  rintro ⟨hA, _⟩
  simp only [isDigitC, Char.isDigit, Bool.and_eq_true, decide_eq_true_eq] at h
  have h9A : ('9' : Char) < 'A' := by decide
  exact absurd (lt_of_lt_of_le h9A hA) (not_lt.mpr h.2)

/-- A digit never equals the lower-case letter opening the literal
patterns `account`, `a/c`, `acc`. -/
theorem digit_lower_ne_a {c : Char} (h : isDigitC c = true) : lowerC c ≠ 'a' := by
  rw [digit_lower h]
  intro he
  rw [he] at h
  exact absurd h (by decide)

/-- Everything in a take-while prefix satisfies the predicate;
membership of the whole list when all members satisfy it. -/
theorem takeWhile_all {p : Char → Bool} {s : List Char}
    (h : ∀ c ∈ s, p c = true) : s.takeWhile p = s := by
  induction s with
  | nil => rfl
  | cons c rest ih =>
    rw [List.takeWhile_cons, if_pos (h c (List.mem_cons_self c rest))]
    rw [ih (fun d hd => h d (List.mem_cons_of_mem c hd))]

/-- Take-while over a list whose prefix satisfies the predicate and
whose next element refutes it. -/
theorem takeWhile_append_stop {p : Char → Bool} {u r : List Char} {x : Char}
    (hu : ∀ c ∈ u, p c = true) (hx : p x = false) :
    (u ++ x :: r).takeWhile p = u ∧ (u ++ x :: r).dropWhile p = x :: r := by
  induction u with
  | nil => simp [List.takeWhile_cons, List.dropWhile_cons, hx]
  | cons c ut ih =>
    have hpc : p c = true := hu c (List.mem_cons_self c ut)
    have iht := ih (fun d hd => hu d (List.mem_cons_of_mem c hd))
    constructor
    · rw [List.cons_append, List.takeWhile_cons, if_pos hpc, iht.1]
    · rw [List.cons_append, List.dropWhile_cons, if_pos hpc, iht.2]

/-- Stripping is the identity on whitespace-free texts. -/
theorem pstrip_id {s : List Char} (h : ∀ c ∈ s, isSpaceC c = false) :
    pstrip s = s := by
  have hdw : ∀ t : List Char, (∀ c ∈ t, isSpaceC c = false) → t.dropWhile isSpaceC = t := by
    intro t ht
    cases t with
    | nil => rfl
    | cons c r => rw [List.dropWhile_cons, if_neg (by simp [ht c (List.mem_cons_self c r)])]
  rw [pstrip, hdw s h, hdw s.reverse (fun c hc => h c (List.mem_reverse.mp hc)),
    List.reverse_reverse]

/-- Deduplication only drops elements. -/
theorem dedupAux_subset {a : List Char} :
    ∀ {seen l : List (List Char)}, a ∈ dedupAux seen l → a ∈ l := by
  intro seen l
  induction l generalizing seen with
  | nil => simp [dedupAux]
  | cons x t ih =>
    rw [dedupAux]
    intro h
    by_cases hx : seen.contains x
    · rw [if_pos hx] at h
      exact List.mem_cons_of_mem x (ih h)
    · rw [if_neg hx] at h
      rcases List.mem_cons.mp h with h1 | h2
      · exact h1 ▸ List.mem_cons_self x t
      · exact List.mem_cons_of_mem x (ih h2)

/-- Deduplication only drops elements. -/
theorem dedup_subset {a : List Char} {l : List (List Char)} (h : a ∈ dedup l) :
    a ∈ l := dedupAux_subset h

/-- Every emitted value of `extractWith` is the strip of a raw match. -/
theorem extractWith_mem {w : List Char} {ms : List (List Char)}
    (h : w ∈ extractWith ms) : ∃ m ∈ ms, w = pstrip m := by
  rw [extractWith] at h
  have h1 := List.mem_filter.mp h
  rcases List.mem_map.mp h1.1 with ⟨m, hm, hw⟩
  exact ⟨m, hm, hw.symm⟩

/-- A scan whose skip budget covers the rest of the text emits nothing. -/
theorem scanFA_skip_all {try1 : List Char → Option (List Char × ℕ)}
    {needB : Bool} : ∀ {s : List Char} {skip : ℕ} {prev : Option Char},
    s.length ≤ skip → scanFA try1 needB skip prev s = [] := by
  intro s
  induction s with
  | nil => intro skip prev _; cases skip <;> rfl
  | cons c rest ih =>
    intro skip prev h
    cases skip with
    | zero => simp at h
    | succ k => exact ih (by simpa using h)

/-- A boundary-requiring scan emits nothing over word characters when
the previous character is a word character. -/
theorem scanFA_words {try1 : List Char → Option (List Char × ℕ)} :
    ∀ {s : List Char} {skip : ℕ} {p : Char},
    (∀ c ∈ s, isWordC c = true) → isWordC p = true →
    scanFA try1 true skip (some p) s = [] := by
  intro s
  induction s with
  | nil => intro skip p _ _; cases skip <;> rfl
  | cons c rest ih =>
    intro skip p hall hp
    have hc : isWordC c = true := hall c (List.mem_cons_self c rest)
    have hrest : ∀ d ∈ rest, isWordC d = true :=
      fun d hd => hall d (List.mem_cons_of_mem c hd)
    cases skip with
    | succ k => exact ih hrest hc
    | zero =>
      rw [scanFA]
      rw [if_neg (by simp [boundaryB, hp])]
      exact ih hrest hc

/-- A boundary-requiring scan of an all-word text is decided entirely by
the attempt at position zero: a match is emitted alone (everything after
it is scanned with word-character context), a failure ends the scan. -/
theorem scanFA_allword {try1 : List Char → Option (List Char × ℕ)}
    {c : Char} {rest : List Char}
    (hall : ∀ d ∈ c :: rest, isWordC d = true) :
    scanFA try1 true 0 none (c :: rest) =
      (match try1 (c :: rest) with
       | some (m, _) => [m]
       | none => []) := by
  have hc : isWordC c = true := hall c (List.mem_cons_self c rest)
  have hrest : ∀ d ∈ rest, isWordC d = true :=
    fun d hd => hall d (List.mem_cons_of_mem c hd)
  rw [scanFA]
  rw [if_pos (by simp [boundaryB])]
  cases htry : try1 (c :: rest) with
  | none => exact scanFA_words hrest hc
  | some p =>
    rcases p with ⟨m, n⟩
    show m :: scanFA try1 true (n - 1) (some c) rest = [m]
    rw [scanFA_words hrest hc]

/-- A scan emits nothing when the attempt fails on every suffix. -/
theorem scanFA_none {try1 : List Char → Option (List Char × ℕ)}
    {needB : Bool} : ∀ {s : List Char} {skip : ℕ} {prev : Option Char},
    (∀ c t, (c :: t) <:+ s → try1 (c :: t) = none) →
    scanFA try1 needB skip prev s = [] := by
  intro s
  induction s with
  | nil => intro skip prev _; cases skip <;> rfl
  | cons c rest ih =>
    intro skip prev hfail
    have hrest : ∀ d t, (d :: t) <:+ rest → try1 (d :: t) = none := by
      intro d t ht
      exact hfail d t (ht.trans (List.suffix_cons c rest))
    cases skip with
    | succ k => exact ih hrest
    | zero =>
      rw [scanFA]
      by_cases hb : (!needB || boundaryB prev) = true
      · rw [if_pos hb, hfail c rest (List.suffix_refl _)]
        exact ih hrest
      · rw [if_neg hb]
        exact ih hrest

/-- A boundary-requiring scan walks through a word run without emitting,
updating the previous-character context to the run's last character. -/
theorem scanFA_walk {try1 : List Char → Option (List Char × ℕ)} :
    ∀ {w : List Char} {p : Char} {rest : List Char},
    (∀ c ∈ w, isWordC c = true) → isWordC p = true →
    scanFA try1 true 0 (some p) (w ++ rest) =
      scanFA try1 true 0 (some (w.getLastD p)) rest := by
  intro w
  induction w with
  | nil => intro p rest _ _; rfl
  | cons c wt ih =>
    intro p rest hall hp
    have hc : isWordC c = true := hall c (List.mem_cons_self c wt)
    rw [List.cons_append, scanFA]
    rw [if_neg (by simp [boundaryB, hp])]
    rw [ih (fun d hd => hall d (List.mem_cons_of_mem c hd)) hc]
    rw [List.getLastD_cons]

/-- On an all-digit text, a successful bounded-digit-run attempt must
have consumed the whole text (any leftover digit refutes the trailing
boundary). -/
theorem tryDigitsBT_eq {lo : ℕ} {s m : List Char} {n : ℕ}
    (hall : ∀ c ∈ s, isDigitC c = true) :
    ∀ {k : ℕ}, tryDigitsBT lo s k = some (m, n) → m = s ∧ n = s.length := by
  intro k
  induction k with
  | zero => intro h; rw [tryDigitsBT] at h; cases h
  | succ k ih =>
    intro h
    rw [tryDigitsBT] at h
    split_ifs at h with hcond
    · obtain ⟨hc1, hc2, hc3, hc4⟩ := hcond
      have hdrop : s.drop (k + 1) = [] := by
        cases hd : s.drop (k + 1) with
        | nil => rfl
        | cons d t =>
          have hdm : d ∈ s :=
            List.mem_of_mem_drop (by rw [hd]; exact List.mem_cons_self d t)
          have hw : isWordC d = true := digit_word (hall d hdm)
          rw [hd] at hc4
          simp [afterBoundary, boundaryB, hw] at hc4
      have hlen : s.length ≤ k + 1 := by
        rw [← List.drop_eq_nil_iff]
        exact hdrop
      have hlen2 : k + 1 ≤ s.length := by
        rw [List.length_take] at hc2
        omega
      have hte : s.take (k + 1) = s := List.take_of_length_le hlen
      rw [hte] at h
      cases h
      exact ⟨rfl, by omega⟩
    · exact ih h

/-- A successful case-insensitive literal match consumes exactly the
literal's length. -/
theorem matchLitCI_shape :
    ∀ {lit t r : List Char}, matchLitCI lit t = some r →
      r = t.drop lit.length ∧ lit.length ≤ t.length := by
  intro lit
  induction lit with
  | nil =>
    intro t r h
    rw [matchLitCI] at h
    cases h
    simp
  | cons l lt ih =>
    intro t r h
    cases t with
    | nil => rw [matchLitCI] at h; cases h
    | cons c ct =>
      rw [matchLitCI] at h
      split_ifs at h with hlc
      obtain ⟨h1, h2⟩ := ih h
      refine ⟨by simpa using h1, by simpa using h2⟩

/-- Shape of a successful four-digit take. -/
theorem take4d_eq {s t r : List Char} (h : take4d s = some (t, r)) :
    t = s.take 4 ∧ r = s.drop 4 ∧ 4 ≤ s.length := by
  rw [take4d] at h
  split_ifs at h with hc
  cases h
  refine ⟨rfl, rfl, ?_⟩
  rw [List.length_take] at hc
  omega

/-- On all-digit input the optional card separator has only the empty
alternative. -/
theorem sepOpts_digits {s : List Char} (hall : ∀ c ∈ s, isDigitC c = true) :
    sepOpts s = [([], s)] := by
  cases s with
  | nil => rfl
  | cons c r =>
    rw [sepOpts, if_neg]
    rintro (h1 | h2)
    · exact digit_ne_dash (hall c (List.mem_cons_self c r)) h1
    · rw [digit_not_space (hall c (List.mem_cons_self c r))] at h2
      cases h2

/-- First-success over a singleton list of alternatives. -/
theorem firstSome_single {α β : Type} (a : α) (f : α → Option β) :
    firstSome [a] f = f a := by
  cases h : f a <;> simp [firstSome, h]

/-- On an all-digit text a successful card-format attempt consumed the
whole text, which then has exactly sixteen digits. -/
theorem tryCard_eq {s m : List Char} {n : ℕ}
    (hall : ∀ c ∈ s, isDigitC c = true) (h : tryCard s = some (m, n)) :
    m = s ∧ n = s.length := by
  rw [tryCard] at h
  cases h1 : take4d s with
  | none => rw [h1] at h; cases h
  | some p1 =>
    rw [h1] at h
    simp only [Option.some_bind] at h
    obtain ⟨ht1, hr1, hl1⟩ := take4d_eq h1
    have hall1 : ∀ c ∈ p1.2, isDigitC c = true := by
      rw [hr1]; exact fun c hc => hall c (List.mem_of_mem_drop hc)
    rw [sepOpts_digits hall1, firstSome_single] at h
    cases h2 : take4d p1.2 with
    | none => rw [h2] at h; cases h
    | some p2 =>
      rw [h2] at h
      simp only [Option.some_bind] at h
      obtain ⟨ht2, hr2, hl2⟩ := take4d_eq h2
      have hall2 : ∀ c ∈ p2.2, isDigitC c = true := by
        rw [hr2]; exact fun c hc => hall1 c (List.mem_of_mem_drop hc)
      rw [sepOpts_digits hall2, firstSome_single] at h
      cases h3 : take4d p2.2 with
      | none => rw [h3] at h; cases h
      | some p3 =>
        rw [h3] at h
        simp only [Option.some_bind] at h
        obtain ⟨ht3, hr3, hl3⟩ := take4d_eq h3
        have hall3 : ∀ c ∈ p3.2, isDigitC c = true := by
          rw [hr3]; exact fun c hc => hall2 c (List.mem_of_mem_drop hc)
        rw [sepOpts_digits hall3, firstSome_single] at h
        cases h4 : take4d p3.2 with
        | none => rw [h4] at h; cases h
        | some p4 =>
          rw [h4] at h
          simp only [Option.some_bind] at h
          obtain ⟨ht4, hr4, hl4⟩ := take4d_eq h4
          have hall4 : ∀ c ∈ p4.2, isDigitC c = true := by
            rw [hr4]; exact fun c hc => hall3 c (List.mem_of_mem_drop hc)
          split_ifs at h with hb
          · have hdrop : p4.2 = [] := by
              cases hd : p4.2 with
              | nil => rfl
              | cons d t =>
                have hw : isWordC d = true :=
                  digit_word (hall4 d (by rw [hd]; exact List.mem_cons_self d t))
                rw [hd] at hb
                simp [afterBoundary, boundaryB, hw] at hb
            have hr4nil : List.drop 4 p3.2 = [] := by rw [← hr4]; exact hdrop
            have e3 : List.take 4 p3.2 = p3.2 :=
              List.take_of_length_le (by rw [← List.drop_eq_nil_iff]; exact hr4nil)
            have hm : p1.1 ++ [] ++ p2.1 ++ [] ++ p3.1 ++ [] ++ p4.1 = s := by
              rw [ht1, ht2, ht3, ht4]
              simp only [List.append_nil]
              rw [List.append_assoc, List.append_assoc]
              rw [e3, hr3, List.take_append_drop, hr2, List.take_append_drop,
                hr1, List.take_append_drop]
            rw [Option.some.injEq, Prod.mk.injEq] at h
            obtain ⟨hm1, hn1⟩ := h
            refine ⟨?_, ?_⟩
            · rw [← hm1]; exact hm
            · rw [← hn1, hm]

/-- On any suffix of an all-digit text, an attempt for one of the
`lit[:\s]+(\d+)` patterns fails: the literal opens with the letter `a`,
which no digit lower-cases to. -/
theorem tryLitDigits_digits_none {lit : List Char} {c : Char} {t : List Char}
    (hlit : lit.head? = some 'a')
    (hall : ∀ d ∈ c :: t, isDigitC d = true) :
    tryLitDigits lit (c :: t) = none := by
  cases lit with
  | nil => cases hlit
  | cons l lt =>
    have hl : l = 'a' := by simpa using hlit
    rw [tryLitDigits, matchLitCI]
    rw [if_neg]
    · rfl
    · rw [hl]
      exact digit_lower_ne_a (hall c (List.mem_cons_self c t))

/-- Mid-list default of the last element keeps word-ness. -/
theorem getLastD_word : ∀ {l : List Char} {d : Char},
    (∀ c ∈ l, isWordC c = true) → isWordC d = true →
    isWordC (l.getLastD d) = true := by
  intro l
  induction l with
  | nil => intro d _ hd; exact hd
  | cons c t ih =>
    intro d hl _
    rw [List.getLastD_cons]
    exact ih (fun e he => hl e (List.mem_cons_of_mem c he))
      (hl c (List.mem_cons_self c t))

/-- On an all-digit text of phone length, the `\+?\d{10,15}` attempt
takes everything (the text has no plus sign and at most fifteen digits). -/
theorem tryPhonePlus_digits_eval {c : Char} {rest : List Char}
    (hall : ∀ d ∈ c :: rest, isDigitC d = true)
    (hlen : (c :: rest).length ≤ 15) (hge : 10 ≤ (c :: rest).length) :
    tryPhonePlus (c :: rest) = some (c :: rest, (c :: rest).length) := by
  rw [tryPhonePlus]
  rw [if_neg (digit_ne_plus (hall c (List.mem_cons_self c rest)))]
  rw [takeWhile_all hall]
  rw [if_pos hge]
  simp only [Nat.min_eq_left hlen, List.take_length]

/-- On a short all-digit text (fewer than ten characters), the
`\+?\d{10,15}` attempt fails. -/
theorem tryPhonePlus_digits_short {c : Char} {t : List Char}
    (hall : ∀ d ∈ c :: t, isDigitC d = true) (hlt : (c :: t).length < 10) :
    tryPhonePlus (c :: t) = none := by
  rw [tryPhonePlus]
  rw [if_neg (digit_ne_plus (hall c (List.mem_cons_self c t)))]
  rw [takeWhile_all hall]
  rw [if_neg (by omega)]

/-- On an all-digit text, a successful `\b91\d{10}\b` attempt consumed
the whole text. -/
theorem try91_eq {s m : List Char} {n : ℕ}
    (hall : ∀ c ∈ s, isDigitC c = true) (h : try91 s = some (m, n)) :
    m = s ∧ n = s.length := by
  unfold try91 at h
  split at h
  next s2 =>
    split_ifs at h with hc
    obtain ⟨hc1, hc2, hc3⟩ := hc
    have hdrop : s2.drop 10 = [] := by
      cases hd : s2.drop 10 with
      | nil => rfl
      | cons d t =>
        have hdm : d ∈ s2 :=
          List.mem_of_mem_drop (by rw [hd]; exact List.mem_cons_self d t)
        have hw : isWordC d = true :=
          digit_word (hall d (by
            exact List.mem_cons_of_mem _ (List.mem_cons_of_mem _ hdm)))
        rw [hd] at hc3
        simp [afterBoundary, boundaryB, hw] at hc3
    have hlen : s2.length = 10 := by
      rw [List.length_take] at hc1
      have := List.drop_eq_nil_iff.mp hdrop
      omega
    have hte : s2.take 10 = s2 := List.take_of_length_le (by omega)
    rw [hte] at h
    cases h
    refine ⟨rfl, ?_⟩
    simp [hlen]
  next => cases h

/-- A scan whose first attempt succeeds and consumes enough to cover
the rest of the text emits exactly that match (at the start of the text
the boundary condition holds vacuously). -/
theorem scanFA_first {try1 : List Char → Option (List Char × ℕ)}
    {needB : Bool} {c : Char} {rest m : List Char} {n : ℕ}
    (htry : try1 (c :: rest) = some (m, n)) (hskip : rest.length ≤ n - 1) :
    scanFA try1 needB 0 none (c :: rest) = [m] := by
  rw [scanFA]
  rw [if_pos (by simp [boundaryB])]
  rw [htry]
  show m :: scanFA try1 needB (n - 1) (some c) rest = [m]
  rw [scanFA_skip_all hskip]

/-- On an all-digit text, every emitted bounded-digit-run match is the
whole text. -/
theorem findBare_digits {lo hi : ℕ} {s w : List Char}
    (hall : ∀ c ∈ s, isDigitC c = true) (h : w ∈ findBare lo hi s) : w = s := by
  cases s with
  | nil => simp [findBare, reFindall, scanFA] at h
  | cons c rest =>
    rw [findBare, reFindall,
      scanFA_allword (fun d hd => digit_word (hall d hd))] at h
    cases htry : tryDigitsBT lo (c :: rest) hi with
    | none => rw [htry] at h; simp at h
    | some p =>
      rcases p with ⟨m, n⟩
      rw [htry] at h
      simp at h
      rw [h]
      exact (tryDigitsBT_eq hall htry).1

/-- On an all-digit text, every emitted card-format match is the whole
text. -/
theorem findCard_digits {s w : List Char}
    (hall : ∀ c ∈ s, isDigitC c = true) (h : w ∈ findCard s) : w = s := by
  cases s with
  | nil => simp [findCard, reFindall, scanFA] at h
  | cons c rest =>
    rw [findCard, reFindall,
      scanFA_allword (fun d hd => digit_word (hall d hd))] at h
    cases htry : tryCard (c :: rest) with
    | none => rw [htry] at h; simp at h
    | some p =>
      rcases p with ⟨m, n⟩
      rw [htry] at h
      simp at h
      rw [h]
      exact (tryCard_eq hall htry).1

/-- On an all-digit text the literal-prefixed account patterns match
nothing. -/
theorem findLitDigits_digits {lit s : List Char}
    (hlit : lit.head? = some 'a') (hall : ∀ c ∈ s, isDigitC c = true) :
    findLitDigits lit s = [] := by
  rw [findLitDigits, reFindall]
  apply scanFA_none
  intro c t hsuf
  exact tryLitDigits_digits_none hlit (fun d hd => hall d (hsuf.subset hd))

/-- On an all-digit text of length at most fifteen, every emitted
`\+?\d{10,15}` match is the whole text. -/
theorem findPhonePlus_digits {s w : List Char}
    (hall : ∀ c ∈ s, isDigitC c = true) (hlen : s.length ≤ 15)
    (h : w ∈ findPhonePlus s) : w = s := by
  rcases Nat.lt_or_ge s.length 10 with hlt | hge
  · rw [findPhonePlus, reFindall, scanFA_none] at h
    · simp at h
    · intro c t hsuf
      have hallt : ∀ d ∈ c :: t, isDigitC d = true :=
        fun d hd => hall d (hsuf.subset hd)
      have hlt2 : (c :: t).length < 10 := by
        have := hsuf.length_le
        omega
      exact tryPhonePlus_digits_short hallt hlt2
  · cases s with
    | nil => simp at hge
    | cons c rest =>
      rw [findPhonePlus, reFindall,
        scanFA_first (tryPhonePlus_digits_eval hall hlen hge) (by simp)] at h
      simpa using h

/-- On an all-digit text, every emitted `\b91\d{10}\b` match is the
whole text. -/
theorem find91_digits {s w : List Char}
    (hall : ∀ c ∈ s, isDigitC c = true) (h : w ∈ find91 s) : w = s := by
  cases s with
  | nil => simp [find91, reFindall, scanFA] at h
  | cons c rest =>
    rw [find91, reFindall,
      scanFA_allword (fun d hd => digit_word (hall d hd))] at h
    cases htry : try91 (c :: rest) with
    | none => rw [htry] at h; simp at h
    | some p =>
      rcases p with ⟨m, n⟩
      rw [htry] at h
      simp at h
      rw [h]
      exact (try91_eq hall htry).1

/-- On a handle `u@b` with nonempty alphanumeric halves, the generic
handle attempt matches the whole text. -/
theorem tryUpiGeneric_at {u b : List Char}
    (hu : u ≠ []) (hua : ∀ c ∈ u, isAlnumC c = true)
    (hb : b ≠ []) (hba : ∀ c ∈ b, isAlnumC c = true) :
    tryUpiGeneric (u ++ '@' :: b) =
      some (u ++ '@' :: b, u.length + 1 + b.length) := by
  obtain ⟨tw, _⟩ := takeWhile_append_stop (p := isUpiClassC) (u := u)
    (x := '@') (r := b)
    (fun c hc => alnum_upiclass (hua c hc)) (by decide)
  rw [tryUpiGeneric]
  rw [tw]
  rw [if_neg (by simp [hu])]
  rw [if_neg (by
    cases u with
    | nil => exact absurd rfl hu
    | cons c ut =>
      simp only [List.head?_cons, Option.elim]
      rw [alnum_word (hua c (List.mem_cons_self c ut))]
      simp)]
  rw [List.drop_left]
  show (let b2 := b.takeWhile isAlnumC
    if b2.isEmpty then none
    else if afterBoundary (b.drop b2.length) then
      some (u ++ '@' :: b2, u.length + 1 + b2.length)
    else none) = some (u ++ '@' :: b, u.length + 1 + b.length)
  rw [takeWhile_all hba]
  show (if b.isEmpty then none
    else if afterBoundary (b.drop b.length) then
      some (u ++ '@' :: b, u.length + 1 + b.length)
    else none) = some (u ++ '@' :: b, u.length + 1 + b.length)
  rw [if_neg (by simp [hb])]
  rw [List.drop_length]
  rw [if_pos (by simp [afterBoundary, boundaryB])]

/-- On a bare nonempty alphanumeric text (no `@`), the generic handle
attempt fails. -/
theorem tryUpiGeneric_alnum_none {b : List Char}
    (hba : ∀ c ∈ b, isAlnumC c = true) (hb : b ≠ []) :
    tryUpiGeneric b = none := by
  rw [tryUpiGeneric]
  rw [takeWhile_all (fun c hc => alnum_upiclass (hba c hc))]
  rw [if_neg (by simp [hb])]
  rw [if_neg (by
    cases b with
    | nil => exact absurd rfl hb
    | cons c bt =>
      simp only [List.head?_cons, Option.elim]
      rw [alnum_word (hba c (List.mem_cons_self c bt))]
      simp)]
  rw [List.drop_length]

/-- On a handle `u@b` with nonempty alphanumeric halves, a successful
provider attempt consumed the whole text (the trailing boundary forces
the literal to exhaust `b`). -/
theorem tryProvider_shape {lit u b m : List Char} {n : ℕ}
    (hu : u ≠ []) (hua : ∀ c ∈ u, isAlnumC c = true)
    (_hb : b ≠ []) (hba : ∀ c ∈ b, isAlnumC c = true)
    (h : tryProvider lit (u ++ '@' :: b) = some (m, n)) :
    m = u ++ '@' :: b ∧ n = (u ++ '@' :: b).length := by
  obtain ⟨tw, _⟩ := takeWhile_append_stop (p := isWordC) (u := u)
    (x := '@') (r := b)
    (fun c hc => alnum_word (hua c hc)) (by decide)
  rw [tryProvider, tw] at h
  rw [if_neg (by simp [hu])] at h
  rw [List.drop_left] at h
  have h2 : (match matchLitCI lit b with
      | some s3 =>
        if afterBoundary s3 then
          some (u ++ '@' :: b.take lit.length, u.length + 1 + lit.length)
        else none
      | none => none) = some (m, n) := h
  cases hm : matchLitCI lit b with
  | none => rw [hm] at h2; cases h2
  | some s3 =>
    rw [hm] at h2
    obtain ⟨hs3, hlitlen⟩ := matchLitCI_shape hm
    have h3 : (if afterBoundary s3 = true then
        some (u ++ '@' :: b.take lit.length, u.length + 1 + lit.length)
      else none) = some (m, n) := h2
    split_ifs at h3 with hbnd
    have hs3nil : s3 = [] := by
      cases hd : s3 with
      | nil => rfl
      | cons d t =>
        have hdm : d ∈ b := by
          rw [hs3] at hd
          exact List.mem_of_mem_drop (by rw [hd]; exact List.mem_cons_self d t)
        have hw : isWordC d = true := alnum_word (hba d hdm)
        rw [hd] at hbnd
        simp [afterBoundary, boundaryB, hw] at hbnd
    have hble : b.length ≤ lit.length := by
      rw [hs3nil] at hs3
      have := List.drop_eq_nil_iff.mp hs3.symm
      omega
    have htk : b.take lit.length = b := List.take_of_length_le hble
    rw [htk] at h3
    have hll : lit.length = b.length := by omega
    cases h3
    refine ⟨rfl, ?_⟩
    simp
    omega

/-- On a bare nonempty alphanumeric text (no `@`), a provider attempt
fails. -/
theorem tryProvider_alnum_none {lit b : List Char}
    (hba : ∀ c ∈ b, isAlnumC c = true) (hb : b ≠ []) :
    tryProvider lit b = none := by
  rw [tryProvider]
  rw [takeWhile_all (fun c hc => alnum_word (hba c hc))]
  rw [if_neg (by simp [hb])]
  rw [List.drop_length]

/-- On a handle `u@b` with nonempty alphanumeric halves, the generic
handle pattern emits exactly the whole text. -/
theorem findUpiGeneric_mem {u b w : List Char}
    (hu : u ≠ []) (hua : ∀ c ∈ u, isAlnumC c = true)
    (hb : b ≠ []) (hba : ∀ c ∈ b, isAlnumC c = true)
    (h : w ∈ findUpiGeneric (u ++ '@' :: b)) : w = u ++ '@' :: b := by
  cases u with
  | nil => exact absurd rfl hu
  | cons u0 ut =>
    have htry : tryUpiGeneric (u0 :: (ut ++ '@' :: b)) =
        some ((u0 :: ut) ++ '@' :: b, (u0 :: ut).length + 1 + b.length) :=
      tryUpiGeneric_at hu hua hb hba
    rw [findUpiGeneric, reFindall, List.cons_append] at h
    rw [scanFA_first htry (by simp; omega)] at h
    simpa using h

/-- On a handle `u@b` with nonempty alphanumeric halves, a provider
pattern emits nothing but possibly the whole text. -/
theorem findProvider_mem {lit u b w : List Char}
    (hu : u ≠ []) (hua : ∀ c ∈ u, isAlnumC c = true)
    (hb : b ≠ []) (hba : ∀ c ∈ b, isAlnumC c = true)
    (h : w ∈ findProvider lit (u ++ '@' :: b)) : w = u ++ '@' :: b := by
  cases u with
  | nil => exact absurd rfl hu
  | cons u0 ut =>
    have hutw : ∀ c ∈ ut, isWordC c = true :=
      fun c hc => alnum_word (hua c (List.mem_cons_of_mem u0 hc))
    have hu0w : isWordC u0 = true :=
      alnum_word (hua u0 (List.mem_cons_self u0 ut))
    rw [findProvider, reFindall, List.cons_append] at h
    cases htry : tryProvider lit (u0 :: (ut ++ '@' :: b)) with
    | some p =>
      rcases p with ⟨m, n⟩
      have hshape := tryProvider_shape hu hua hb hba (m := m) (n := n) htry
      rw [scanFA_first htry (by rw [hshape.2]; simp)] at h
      rw [List.mem_singleton] at h
      rw [h, hshape.1]
    | none =>
      rw [scanFA] at h
      rw [if_pos (by simp [boundaryB])] at h
      rw [htry] at h
      have h2 : w ∈ scanFA (tryProvider lit) true 0 (some u0) (ut ++ '@' :: b) := h
      rw [scanFA_walk hutw hu0w] at h2
      rw [scanFA] at h2
      rw [if_neg (by
        simp only [Bool.not_true, Bool.false_or, boundaryB]
        rw [getLastD_word hutw hu0w]
        simp)] at h2
      cases b with
      | nil => exact absurd rfl hb
      | cons b0 bt =>
        rw [scanFA] at h2
        rw [if_pos (by simp [boundaryB, isWordC, Char.isAlphanum])] at h2
        rw [tryProvider_alnum_none hba hb] at h2
        have h3 : w ∈ scanFA (tryProvider lit) true 0 (some b0) bt := h2
        rw [scanFA_words
          (fun c hc => alnum_word (hba c (List.mem_cons_of_mem b0 hc)))
          (alnum_word (hba b0 (List.mem_cons_self b0 bt)))] at h3
        cases h3

/-- Letters and digits are not whitespace. -/
theorem alnum_not_space {c : Char} (h : isAlnumC c = true) : isSpaceC c = false := by
  simp only [isAlnumC] at h
  simp only [isSpaceC, Bool.or_eq_false_iff]
  refine ⟨⟨⟨⟨⟨?_, ?_⟩, ?_⟩, ?_⟩, ?_⟩, ?_⟩ <;>
    · simp only [decide_eq_false_iff_not]
      intro he
      rw [he] at h
      exact absurd h (by decide)

/-- No character of a well-formed handle is whitespace. -/
theorem handle_not_space {u b : List Char}
    (hua : ∀ c ∈ u, isAlnumC c = true) (hba : ∀ c ∈ b, isAlnumC c = true) :
    ∀ c ∈ u ++ '@' :: b, isSpaceC c = false := by
  intro c hc
  rcases List.mem_append.mp hc with hcu | hcb
  · exact alnum_not_space (hua c hcu)
  · rcases List.mem_cons.mp hcb with he | hcb2
    · rw [he]; decide
    · exact alnum_not_space (hba c hcb2)

/-- Cleaning only filters the bank-account field. -/
theorem clean_bank_sub {r : Intelligence} {w : List Char}
    (h : w ∈ (clean_results r).bankAccounts) : w ∈ r.bankAccounts :=
  (List.mem_filter.mp h).1

/-- Cleaning only filters the handle field. -/
theorem clean_upi_sub {r : Intelligence} {w : List Char}
    (h : w ∈ (clean_results r).upiIds) : w ∈ r.upiIds :=
  (List.mem_filter.mp h).1

/-- Cleaning only filters the phone-number field. -/
theorem clean_phone_sub {r : Intelligence} {w : List Char}
    (h : w ∈ (clean_results r).phoneNumbers) : w ∈ r.phoneNumbers :=
  (List.mem_filter.mp h).1

/-- Re-running extraction on an all-digit text yields no bank-account
entry other than the text itself. -/
theorem extract_bank_digits {v w : List Char}
    (hall : ∀ c ∈ v, isDigitC c = true)
    (h : w ∈ (extract_from_text v).bankAccounts) : w = v := by
  have hps : ∀ {m : List Char}, m = v → pstrip m = v := by
    intro m hm
    rw [hm, pstrip_id (fun c hc => digit_not_space (hall c hc))]
  have h2 : w ∈ rawBankAccounts v := dedup_subset (clean_bank_sub h)
  have e1 : findLitDigits (chars "account") v = [] := findLitDigits_digits (by decide) hall
  have e2 : findLitDigits (chars "a/c") v = [] := findLitDigits_digits (by decide) hall
  have e3 : findLitDigits (chars "acc") v = [] := findLitDigits_digits (by decide) hall
  rw [rawBankAccounts, e1, e2, e3] at h2
  simp only [extractWith, List.map_nil, List.filter_nil, List.append_nil] at h2
  rcases List.mem_append.mp h2 with h3 | h3
  · rcases extractWith_mem h3 with ⟨m, hm, hw⟩
    rw [hw]
    exact hps (findBare_digits hall hm)
  · rcases extractWith_mem h3 with ⟨m, hm, hw⟩
    rw [hw]
    exact hps (findCard_digits hall hm)

/-- Re-running extraction on an all-digit text of length at most fifteen
yields no phone-number entry other than the text itself. -/
theorem extract_phone_digits {v w : List Char}
    (hall : ∀ c ∈ v, isDigitC c = true) (hlen : v.length ≤ 15)
    (h : w ∈ (extract_from_text v).phoneNumbers) : w = v := by
  have hps : ∀ {m : List Char}, m = v → pstrip m = v := by
    intro m hm
    rw [hm, pstrip_id (fun c hc => digit_not_space (hall c hc))]
  have h2 : w ∈ rawPhoneNumbers v := dedup_subset (clean_phone_sub h)
  rw [rawPhoneNumbers] at h2
  rcases List.mem_append.mp h2 with h3 | h3
  · rcases List.mem_append.mp h3 with h4 | h4
    · rcases extractWith_mem (List.mem_filter.mp h4).1 with ⟨m, hm, hw⟩
      rw [hw]
      exact hps (findPhonePlus_digits hall hlen hm)
    · rcases extractWith_mem (List.mem_filter.mp h4).1 with ⟨m, hm, hw⟩
      rw [hw]
      exact hps (findBare_digits hall hm)
  · rcases extractWith_mem (List.mem_filter.mp h3).1 with ⟨m, hm, hw⟩
    rw [hw]
    exact hps (find91_digits hall hm)

/-- Re-running extraction on a handle with nonempty alphanumeric halves
yields no handle entry other than the text itself. -/
theorem extract_upi_handle {u b w : List Char}
    (hu : u ≠ []) (hua : ∀ c ∈ u, isAlnumC c = true)
    (hb : b ≠ []) (hba : ∀ c ∈ b, isAlnumC c = true)
    (h : w ∈ (extract_from_text (u ++ '@' :: b)).upiIds) : w = u ++ '@' :: b := by
  have hps : ∀ {m : List Char}, m = u ++ '@' :: b → pstrip m = u ++ '@' :: b := by
    intro m hm
    rw [hm, pstrip_id (handle_not_space hua hba)]
  have h2 : w ∈ rawUpiIds (u ++ '@' :: b) := dedup_subset (clean_upi_sub h)
  rw [rawUpiIds] at h2
  rcases List.mem_append.mp h2 with h3 | h3
  · rcases extractWith_mem (List.mem_filter.mp h3).1 with ⟨m, hm, hw⟩
    rw [hw]
    exact hps (findUpiGeneric_mem hu hua hb hba hm)
  · rcases List.mem_flatten.mp h3 with ⟨l, hl, hwl⟩
    rcases List.mem_map.mp hl with ⟨lit, _, hlit⟩
    rw [← hlit] at hwl
    rcases extractWith_mem (List.mem_filter.mp hwl).1 with ⟨m, hm, hw⟩
    rw [hw]
    exact hps (findProvider_mem hu hua hb hba hm)

/-- A run that ends undetected never triggered the callback. -/
theorem guvi_zero {s : Session} (ms : List (List Char))
    (h : (runSession s ms).scam_detected = false) : guviCount s ms = 0 := by
  induction ms generalizing s with
  | nil => rfl
  | cons m ms ih =>
    have h2 : (runSession (stepSession s m).1 ms).scam_detected = false := h
    have hstep : (stepSession s m).2 = false := by
      cases hd : (stepSession s m).1.scam_detected with
      | false => rw [step_flag, hd, Bool.false_and]
      | true => rw [run_detected ms hd] at h2; cases h2
    rw [guviCount, hstep, ih h2]
    simp

/-- C1, corrected: once a session is detected and holds at least two
messages, the GUVI callback fires on EVERY further message (not exactly
once per session), and the `finalized` flag never changes (the source
never sets it). -/
theorem C1_amended (s : Session) (ms : List (List Char))
    (h : s.scam_detected = true) (h2 : 2 ≤ s.message_count) :
    guviCount s ms = ms.length ∧ (runSession s ms).finalized = s.finalized :=
  ⟨guvi_saturates ms h h2, run_finalized s ms⟩

/-- C1, counterexample to the claim as stated: over four scam messages
the callback is invoked twice (messages 3 and 4), not exactly once, and
the session ends detected with `finalized` still false. -/
theorem C1_counterexample :
    guviCount initSession
      [chars "urgent verify account", chars "urgent verify account",
       chars "urgent verify account", chars "urgent verify account"] = 2 ∧
    (runSession initSession
      [chars "urgent verify account", chars "urgent verify account",
       chars "urgent verify account", chars "urgent verify account"]).scam_detected
      = true ∧
    (runSession initSession
      [chars "urgent verify account", chars "urgent verify account",
       chars "urgent verify account", chars "urgent verify account"]).finalized
      = false := by
  decide

/-- C1, witness: the amended theorem applied to a concrete detected
two-message session and two further messages. -/
theorem C1_amended_witness :
    guviCount
      (runSession initSession
        [chars "urgent verify account", chars "urgent verify account"])
      [chars "hello", chars "hello"] = 2 ∧
    (runSession
      (runSession initSession
        [chars "urgent verify account", chars "urgent verify account"])
      [chars "hello", chars "hello"]).finalized =
      (runSession initSession
        [chars "urgent verify account", chars "urgent verify account"]).finalized :=
  C1_amended
    (runSession initSession
      [chars "urgent verify account", chars "urgent verify account"])
    [chars "hello", chars "hello"] (by decide) (by decide)

/-- C2, corrected: the source has no FinalizationPolicy; the callback of
one step fires exactly when the updated session is detected with at
least three messages, and a run that ends undetected never fires it. -/
theorem C2_amended (s : Session) (m : List Char) (ms : List (List Char)) :
    (stepSession s m).2 =
      ((stepSession s m).1.scam_detected &&
        decide (3 ≤ (stepSession s m).1.message_count)) ∧
    ((runSession s ms).scam_detected = false → guviCount s ms = 0) :=
  ⟨step_flag s m, fun h => guvi_zero ms h⟩

/-- C2, counterexample to the claim as stated: after three scam messages
the callback has been invoked although the spec policy (messageCount at
least 15, or substantial intelligence with messageCount at least 8, or
confidence at least 0.8 with substantial intelligence) evaluates false
on the resulting session. -/
theorem C2_counterexample :
    guviCount initSession
      [chars "urgent verify account", chars "urgent verify account",
       chars "urgent verify account"] = 1 ∧
    specShouldFinalize
      (runSession initSession
        [chars "urgent verify account", chars "urgent verify account",
         chars "urgent verify account"]) = false := by
  decide

/-- C2, witness: the amended theorem applied to a benign three-message
run, which never fires the callback. -/
theorem C2_amended_witness :
    guviCount initSession [chars "hello", chars "hello", chars "hello"] = 0 :=
  (C2_amended initSession (chars "hello")
    [chars "hello", chars "hello", chars "hello"]).2 (by decide)

/-- C3, corrected: detection runs only while the session holds at most
five messages (not regardless of count), and latches only when the
detector reports a confidence strictly above 0.5 (not on every
`isScam = true`); when it latches, confidence and indicators are
captured from that call. -/
theorem C3_amended (s : Session) (m : List Char) :
    (stepSession s m).1.scam_detected =
      (s.scam_detected ||
        (decide (s.message_count + 1 ≤ 5) && !s.scam_detected &&
          ((detect_scam m).1 && decide (mkRat 1 2 < (detect_scam m).2.1)))) ∧
    (s.scam_detected = false → (stepSession s m).1.scam_detected = true →
      (stepSession s m).1.scam_confidence = (detect_scam m).2.1 ∧
      (stepSession s m).1.scam_indicators = (detect_scam m).2.2) := by
  constructor
  · rfl
  · intro hpre hpost
    have e : (stepSession s m).1.scam_detected =
        (s.scam_detected ||
          (decide (s.message_count + 1 ≤ 5) && !s.scam_detected &&
            ((detect_scam m).1 && decide (mkRat 1 2 < (detect_scam m).2.1)))) := rfl
    rw [e, Bool.or_eq_true] at hpost
    rcases hpost with hT | hnd
    · rw [hpre] at hT
      cases hT
    · constructor
      · show (if (decide (s.message_count + 1 ≤ 5) && !s.scam_detected &&
            ((detect_scam m).1 && decide (mkRat 1 2 < (detect_scam m).2.1))) = true
            then (detect_scam m).2.1 else s.scam_confidence) = (detect_scam m).2.1
        rw [if_pos hnd]
      · show (if (decide (s.message_count + 1 ≤ 5) && !s.scam_detected &&
            ((detect_scam m).1 && decide (mkRat 1 2 < (detect_scam m).2.1))) = true
            then (detect_scam m).2.2 else s.scam_indicators) = (detect_scam m).2.2
        rw [if_pos hnd]

/-- C3, counterexample to the claim as stated: the scorer flags the
sixth message as a scam but the session stays undetected (the detector
only runs while the count is at most five); and a message of weight
exactly 50 has `isScam = true` yet does not latch detection on a fresh
session (the latch needs confidence strictly above 0.5). -/
theorem C3_counterexample :
    (detect_scam (chars "urgent verify account")).1 = true ∧
    (runSession initSession
      [chars "hello", chars "hello", chars "hello", chars "hello", chars "hello",
       chars "urgent verify account"]).scam_detected = false ∧
    (detect_scam (chars "urgent")).1 = true ∧
    (runSession initSession [chars "urgent"]).scam_detected = false := by
  decide

/-- C3, witness: the capture clause of the amended theorem applied to a
fresh session and a high-confidence scam message. -/
theorem C3_amended_witness :
    (stepSession initSession (chars "urgent verify account")).1.scam_confidence =
      (detect_scam (chars "urgent verify account")).2.1 ∧
    (stepSession initSession (chars "urgent verify account")).1.scam_indicators =
      (detect_scam (chars "urgent verify account")).2.2 :=
  (C3_amended initSession (chars "urgent verify account")).2 (by decide) (by decide)

/-- C4, confirmed: once a run has made the session detected, any
continuation keeps it detected, never lowers the stored confidence, and
leaves the (never written) `finalized` flag at its initial value. -/
theorem C4_monotonic (s : Session) (ms1 ms2 : List (List Char))
    (h : (runSession s ms1).scam_detected = true) :
    (runSession s (ms1 ++ ms2)).scam_detected = true ∧
    (runSession s ms1).scam_confidence ≤
      (runSession s (ms1 ++ ms2)).scam_confidence ∧
    (runSession s (ms1 ++ ms2)).finalized = s.finalized := by
  rw [run_append]
  exact ⟨run_detected ms2 h, le_of_eq (run_frozen ms2 h).1.symm,
    (run_finalized (runSession s ms1) ms2).trans (run_finalized s ms1)⟩

/-- C4, witness: the monotonicity theorem applied to a concrete
detecting prefix and a benign continuation. -/
theorem C4_monotonic_witness :
    (runSession initSession
      ([chars "urgent verify account"] ++ [chars "hello"])).scam_detected = true ∧
    (runSession initSession [chars "urgent verify account"]).scam_confidence ≤
      (runSession initSession
        ([chars "urgent verify account"] ++ [chars "hello"])).scam_confidence ∧
    (runSession initSession
      ([chars "urgent verify account"] ++ [chars "hello"])).finalized =
      initSession.finalized :=
  C4_monotonic initSession [chars "urgent verify account"] [chars "hello"]
    (by decide)

/-- C5, confirmed: the reported confidence is `min(weight/100, 1)`
rounded to two decimals (the rounding is the identity here), the scam
verdict compares that confidence with 0.5, weight exactly 50 yields
confidence 0.50 and `isScam = true`, and weight 49 yields
`isScam = false`. -/
theorem C5_threshold (s : List Char) :
    (detect_scam s).2.1 = pyRound2 (min (mkRat (score_of s) 100) 1) ∧
    (detect_scam s).2.1 = mkRat ((min (score_of s) 100 : ℕ) : ℤ) 100 ∧
    (detect_scam s).1 = decide (mkRat 1 2 ≤ (detect_scam s).2.1) ∧
    (score_of s = 50 →
      (detect_scam s).2.1 = mkRat 50 100 ∧ (detect_scam s).1 = true) ∧
    (score_of s = 49 → (detect_scam s).1 = false) := by
  have hround : pyRound2 (confidence_of (score_of s)) = confidence_of (score_of s) := by
    rw [confidence_of_eq, pyRound2_id]
  refine ⟨rfl, ?_, ?_, ?_, ?_⟩
  · show pyRound2 (confidence_of (score_of s)) = _
    rw [confidence_of_eq, pyRound2_id]
  · show decide (mkRat 1 2 ≤ confidence_of (score_of s)) =
      decide (mkRat 1 2 ≤ pyRound2 (confidence_of (score_of s)))
    rw [hround]
  · intro h50
    constructor
    · show pyRound2 (confidence_of (score_of s)) = mkRat 50 100
      rw [h50]
      decide
    · show is_scam_of (score_of s) = true
      rw [h50]
      decide
  · intro h49
    show is_scam_of (score_of s) = false
    rw [h49]
    decide

/-- C5, witness: the boundary clause of the threshold theorem applied to
a message of weight exactly 50. -/
theorem C5_threshold_witness :
    score_of (chars "urgent") = 50 ∧
    ((detect_scam (chars "urgent")).2.1 = mkRat 50 100 ∧
      (detect_scam (chars "urgent")).1 = true) :=
  ⟨by decide, (C5_threshold (chars "urgent")).2.2.2.1 (by decide)⟩

/-- C6, corrected: the source's handle validation agrees on every input
with the claim's characterization amended at one point, the two part
checks being Python anchored matches whose `$` also accepts one trailing
newline; the four quoted examples decide as the claim states, and on
newline-free candidates the claim's original characterization is
recovered. -/
theorem C6_amended (s : List Char) :
    is_valid_upi s = specHandleValidAmended s ∧
    is_valid_upi (chars "pay@paytm") = true ∧
    is_valid_upi (chars "pay@xyz") = true ∧
    is_valid_upi (chars "p@paytm") = false ∧
    is_valid_upi (chars "pay@xy") = false ∧
    ((∀ c ∈ s, c ≠ Char.ofNat 10) → is_valid_upi s = specHandleValid s) :=
  ⟨is_valid_upi_eq_spec_amended s, by decide, by decide, by decide, by decide,
   fun h => (is_valid_upi_eq_spec_amended s).trans (specHandleValidAmended_no_nl h)⟩

/-- C6, counterexample to the claim as stated: the source accepts the
candidate with local part "ab" followed by a newline (Python's `$`
matches before the trailing newline and the raw local part has length
3), while the claim's characterization rejects it. -/
theorem C6_counterexample :
    is_valid_upi (chars "ab" ++ Char.ofNat 10 :: chars "@paytm") = true ∧
    specHandleValid (chars "ab" ++ Char.ofNat 10 :: chars "@paytm") = false := by
  decide

/-- C6, witness: the amended theorem instantiated at the
newline-carrying candidate and, with its hypothesis discharged, at a
newline-free handle. -/
theorem C6_amended_witness :
    is_valid_upi (chars "ab" ++ Char.ofNat 10 :: chars "@paytm") =
      specHandleValidAmended (chars "ab" ++ Char.ofNat 10 :: chars "@paytm") ∧
    is_valid_upi (chars "user@okaxis") = specHandleValid (chars "user@okaxis") :=
  ⟨(C6_amended (chars "ab" ++ Char.ofNat 10 :: chars "@paytm")).1,
   (C6_amended (chars "user@okaxis")).2.2.2.2.2 (by decide)⟩

/-- C7, confirmed: every extracted bank-account entry has digit-only
length between 9 and 18, and on single bare digit runs the 8- and
19-digit runs are rejected while the 9- and 18-digit runs are returned. -/
theorem C7_bank_length (t w : List Char)
    (h : w ∈ (extract_from_text t).bankAccounts) :
    (9 ≤ digitLen w ∧ digitLen w ≤ 18) ∧
    (extract_from_text (chars "12345678")).bankAccounts = [] ∧
    (extract_from_text (chars "123456789")).bankAccounts = [chars "123456789"] ∧
    (extract_from_text (chars "123456789012345678")).bankAccounts =
      [chars "123456789012345678"] ∧
    (extract_from_text (chars "1234567890123456789")).bankAccounts = [] := by
  refine ⟨?_, by decide, by decide, by decide, by decide⟩
  exact of_decide_eq_true (List.mem_filter.mp h).2

/-- C7, witness: the length-bound theorem applied to a 9-digit run
extracted from itself. -/
theorem C7_bank_length_witness :
    chars "987654321" ∈ (extract_from_text (chars "987654321")).bankAccounts ∧
    ((9 ≤ digitLen (chars "987654321") ∧ digitLen (chars "987654321") ≤ 18) ∧
     (extract_from_text (chars "12345678")).bankAccounts = [] ∧
     (extract_from_text (chars "123456789")).bankAccounts = [chars "123456789"] ∧
     (extract_from_text (chars "123456789012345678")).bankAccounts =
       [chars "123456789012345678"] ∧
     (extract_from_text (chars "1234567890123456789")).bankAccounts = []) :=
  ⟨by decide, C7_bank_length (chars "987654321") (chars "987654321") (by decide)⟩

/-- C8, corrected: the note generator follows the claim's rule except
that a non-empty paymentHandle set contributes the source's wording
"Attempted UPI payment redirection", and an empty input yields the
default note. -/
theorem C8_amended (inds : List (List Char)) (intel : Intelligence) :
    generate_agent_notes inds intel = specNotesAmended inds intel ∧
    generate_agent_notes [] emptyIntel = chars "Standard scam pattern detected" :=
  ⟨generate_agent_notes_eq_amended inds intel, by decide⟩

/-- C8, counterexample to the claim as stated: with no indicators and
only a paymentHandle entry, the source emits "Attempted UPI payment
redirection" while the claim's rule emits "Attempted payment
redirection". -/
theorem C8_counterexample :
    generate_agent_notes []
        { emptyIntel with upiIds := [chars "x@paytm"] } =
      chars "Attempted UPI payment redirection" ∧
    specNotesClaim []
        { emptyIntel with upiIds := [chars "x@paytm"] } =
      chars "Attempted payment redirection" ∧
    generate_agent_notes []
        { emptyIntel with upiIds := [chars "x@paytm"] } ≠
      specNotesClaim []
        { emptyIntel with upiIds := [chars "x@paytm"] } := by
  decide

/-- C8, witness: the amended theorem applied to a concrete indicator
list and the empty intelligence dictionary. -/
theorem C8_amended_witness :
    generate_agent_notes [chars "Critical keyword: urgent"] emptyIntel =
      specNotesAmended [chars "Critical keyword: urgent"] emptyIntel ∧
    generate_agent_notes [] emptyIntel = chars "Standard scam pattern detected" :=
  C8_amended [chars "Critical keyword: urgent"] emptyIntel

/-- C9, corrected: re-running extraction is a fixed point for the
bank-account field on all-digit values and for the handle field on
alphanumeric handles, but NOT for the phone-number field (a leading
plus sign is re-extracted both with and without the sign); the amended
statement drops the phone clause to values re-extracted from digit-only
texts of phone length. -/
theorem C9_amended :
    (∀ v w : List Char, (∀ c ∈ v, isDigitC c = true) →
      w ∈ (extract_from_text v).bankAccounts → w = v) ∧
    (∀ v w : List Char, (∀ c ∈ v, isDigitC c = true) → v.length ≤ 15 →
      w ∈ (extract_from_text v).phoneNumbers → w = v) ∧
    (∀ u b w : List Char, u ≠ [] → (∀ c ∈ u, isAlnumC c = true) →
      b ≠ [] → (∀ c ∈ b, isAlnumC c = true) →
      w ∈ (extract_from_text (u ++ '@' :: b)).upiIds → w = u ++ '@' :: b) :=
  ⟨fun _ _ ha h => extract_bank_digits ha h,
   fun _ _ ha hl h => extract_phone_digits ha hl h,
   fun _ _ _ hu hua hb hba h => extract_upi_handle hu hua hb hba h⟩

/-- C9, counterexample to the claim as stated: "+1234567890" is itself
a phone-number value of an extraction, yet re-running extraction on it
returns a second, different entry "1234567890". -/
theorem C9_counterexample :
    chars "+1234567890" ∈
      (extract_from_text (chars "+1234567890")).phoneNumbers ∧
    chars "1234567890" ∈
      (extract_from_text (chars "+1234567890")).phoneNumbers ∧
    chars "1234567890" ≠ chars "+1234567890" := by
  decide

/-- C9, witness: the phone clause of the amended theorem applied to a
bare ten-digit run re-extracted from itself. -/
theorem C9_amended_witness :
    (∀ c ∈ chars "1234567890", isDigitC c = true) ∧
    chars "1234567890" ∈ (extract_from_text (chars "1234567890")).phoneNumbers ∧
    chars "1234567890" = chars "1234567890" :=
  ⟨by decide, by decide,
   C9_amended.2.1 (chars "1234567890") (chars "1234567890")
     (by decide) (by decide) (by decide)⟩

/-- C10, confirmed: every message processed after detection leaves the
stored confidence and indicator list unchanged, both over one step and
over any further message sequence. -/
theorem C10_frame (s : Session) (m : List Char) (ms : List (List Char))
    (h : s.scam_detected = true) :
    (stepSession s m).1.scam_confidence = s.scam_confidence ∧
    (stepSession s m).1.scam_indicators = s.scam_indicators ∧
    (runSession s ms).scam_confidence = s.scam_confidence ∧
    (runSession s ms).scam_indicators = s.scam_indicators :=
  ⟨(step_frozen m h).1, (step_frozen m h).2, (run_frozen ms h).1,
   (run_frozen ms h).2⟩

/-- C10, witness: the frame theorem applied to a concrete detected
session, one further message, and a two-message continuation. -/
theorem C10_frame_witness :
    (stepSession (runSession initSession [chars "urgent verify account"])
        (chars "hello")).1.scam_confidence =
      (runSession initSession [chars "urgent verify account"]).scam_confidence ∧
    (stepSession (runSession initSession [chars "urgent verify account"])
        (chars "hello")).1.scam_indicators =
      (runSession initSession [chars "urgent verify account"]).scam_indicators ∧
    (runSession (runSession initSession [chars "urgent verify account"])
        [chars "hello", chars "hello"]).scam_confidence =
      (runSession initSession [chars "urgent verify account"]).scam_confidence ∧
    (runSession (runSession initSession [chars "urgent verify account"])
        [chars "hello", chars "hello"]).scam_indicators =
      (runSession initSession [chars "urgent verify account"]).scam_indicators :=
  C10_frame (runSession initSession [chars "urgent verify account"])
    (chars "hello") [chars "hello", chars "hello"] (by decide)
